import Mathlib

/-!
# OneMax genetic algorithm (`one_max/main.cpp`)

A shallow embedding of the evolutionary loop of `one_max/main.cpp` and the
properties of its stages.

Conventions of the embedding.

* `std::array<short, 1000>` is a `List Int` (`Genome`); its fixed length and the
  range of `short` are the predicate `IsGenome`.  The population
  (`std::array<…, 100>`) is a `List Genome`, the `selections` array a list of pairs.
* Iterators are indices (`Nat`).  An access outside an array is undefined behaviour
  in C++; here every operation that indexes returns `Option`, and `none` stands for
  such an access.  A read of a never-written entry of the local `temp` is `none`
  as well: `temp` holds `Option Int`, `none` being an indeterminate value.
* `int` arithmetic wraps at 32 bits (`wrapInt`).
* Randomness is an explicit argument: `rand : Nat → Nat` gives the successive
  results of `rand()`, and a `MutationDraw` per individual gives the outcome of
  `dis(g) < 0.08` and the draws of `std::shuffle`.
* `main` is the function `step` between its control points; `Reachable` and `Run`
  collect the states it can be in under any random outcomes.
-/

namespace OneMax

/-! ## Data model -/

/-- Genome length, the `1000` of `std::array<short, 1000>`. -/
abbrev L : Nat := 1000

/-- Population size, the `100` of `std::array<std::array<short, 1000>, 100>`. -/
abbrev N : Nat := 100

/-- One individual: the entries of a `std::array<short, 1000>`. -/
abbrev Genome := List Int

/-- The population array. -/
abbrev Population := List Genome

/-- One slot of `selections`: a `std::pair` of two genomes. -/
abbrev Pairing := Genome × Genome

/-- The local array `temp` of `crossover`; `none` is an entry that was never written. -/
abbrev Scratch := List (Option Int)

/-- A value of C++ type `short`. -/
def IsShort (x : Int) : Prop := -32768 ≤ x ∧ x ≤ 32767

instance (x : Int) : Decidable (IsShort x) := by unfold IsShort; infer_instance

/-- A well-typed `std::array<short, 1000>`. -/
def IsGenome (g : Genome) : Prop := g.length = L ∧ ∀ x ∈ g, IsShort x

instance (g : Genome) : Decidable (IsGenome g) := by unfold IsGenome; infer_instance

/-- A well-typed population array: `100` genomes. -/
def IsPopulation (population : Population) : Prop :=
  population.length = N ∧ ∀ g ∈ population, IsGenome g

instance (p : Population) : Decidable (IsPopulation p) := by unfold IsPopulation; infer_instance

/-- A well-typed `selections` array: `50` pairs of genomes. -/
def IsSelections (selections : List Pairing) : Prop :=
  selections.length = 50 ∧ ∀ p ∈ selections, IsGenome p.1 ∧ IsGenome p.2

instance (s : List Pairing) : Decidable (IsSelections s) := by unfold IsSelections; infer_instance

/-- Every entry of the genome is `0` or `1`. -/
def IsBinary (g : Genome) : Prop := ∀ x ∈ g, x = 0 ∨ x = 1

instance (g : Genome) : Decidable (IsBinary g) := by unfold IsBinary; infer_instance

/-- A genome of length `L` whose entries all satisfy `P`. -/
def GenomeOf (P : Int → Prop) (g : Genome) : Prop := g.length = L ∧ ∀ x ∈ g, P x

/-- A population of `N` genomes of length `L` whose entries all satisfy `P`. -/
def PopulationOf (P : Int → Prop) (population : Population) : Prop :=
  population.length = N ∧ ∀ g ∈ population, GenomeOf P g

/-- A `selections` array of `50` pairs of genomes of length `L` whose entries all
satisfy `P`. -/
def SelectionsOf (P : Int → Prop) (selections : List Pairing) : Prop :=
  selections.length = 50 ∧ ∀ p ∈ selections, GenomeOf P p.1 ∧ GenomeOf P p.2

/-- A well-typed population all of whose entries are `0` or `1`. -/
def IsBinaryPopulation (population : Population) : Prop :=
  population.length = N ∧ ∀ g ∈ population, g.length = L ∧ IsBinary g

/-- A well-typed `selections` array all of whose entries are `0` or `1`. -/
def IsBinarySelections (selections : List Pairing) : Prop :=
  selections.length = 50 ∧
    ∀ p ∈ selections, (p.1.length = L ∧ IsBinary p.1) ∧ (p.2.length = L ∧ IsBinary p.2)

/-- The genome whose entries are all `0`. -/
def zeroGenome : Genome := List.replicate 1000 0

/-- The genome whose entries are all `1`. -/
def oneGenome : Genome := List.replicate 1000 1

/-- The population of `100` all-zero genomes. -/
def zeroPopulation : Population := List.replicate 100 zeroGenome

/-- A `selections` array whose genomes are all-zero. -/
def zeroSelections : List Pairing := List.replicate 50 (zeroGenome, zeroGenome)

/-- Fitness as the specification defines it: the sum of the genome's entries. -/
def fitness (g : Genome) : Int := g.sum

/-! ## Library operations used by the program -/

/-- Arithmetic in `int`: the result reduced to 32 bits, two's complement. -/
def wrapInt (x : Int) : Int := (x + 2147483648) % 4294967296 - 2147483648

/-- The call `std::accumulate(g.begin(), g.end(), init)` with an `int` accumulator. -/
def accumulate (g : Genome) (init : Int) : Int :=
  g.foldl (fun acc x => wrapInt (acc + x)) init

/-- The call `std::copy(src.begin() + first, src.begin() + last, dst.begin() + dfirst)`:
the entries `[first, last)` of `src` overwrite `dst` from index `dfirst` on.
`none` when a range leaves its array. -/
def stdCopy {α : Type} (src : List α) (first last : Nat) (dst : List α) (dfirst : Nat) :
    Option (List α) :=
  if first ≤ last ∧ last ≤ src.length ∧ dfirst + (last - first) ≤ dst.length then
    some (dst.take dfirst ++ (src.drop first).take (last - first)
      ++ dst.drop (dfirst + (last - first)))
  else none

/-- The entries of a scratch range, provided each of them has been written. -/
def readWritten : Scratch → Option (List Int)
  | [] => some []
  | none :: _ => none
  | some x :: rest => (readWritten rest).map (fun xs => x :: xs)

/-- The call of `std::copy` out of the scratch array: as `stdCopy`, and `none` as well when an
entry that is read was never written. -/
def stdCopyFromScratch (src : Scratch) (first last : Nat) (dst : Genome) (dfirst : Nat) :
    Option Genome :=
  if first ≤ last ∧ last ≤ src.length ∧ dfirst + (last - first) ≤ dst.length then
    (readWritten ((src.drop first).take (last - first))).map
      (fun xs => dst.take dfirst ++ xs ++ dst.drop (dfirst + (last - first)))
  else none

/-- Exchange of the entries at `i` and `j` (`std::iter_swap`); both indices must be
inside the list, otherwise nothing is done. -/
def swapAt {α : Type} (l : List α) (i j : Nat) : List α :=
  match l[i]?, l[j]? with
  | some a, some b => (l.set i b).set j a
  | _, _ => l

/-- The call `std::shuffle(g.begin(), g.end(), gen)`: for `i = 1, …, n-1` the entry at `i` is
exchanged with the entry at an index drawn from `[0, i]`.  `index i` is the raw draw
of step `i`, reduced to the range `[0, i]`. -/
def stdShuffle (index : Nat → Nat) (g : Genome) : Genome :=
  (List.range' 1 (g.length - 1)).foldl (fun acc i => swapAt acc i (index i % (i + 1))) g

/-- The inner loop of insertion sort: `x` is placed in front of the first element
that `x` must precede according to `comp`. -/
def orderedInsert {α : Type} (comp : α → α → Bool) (x : α) : List α → List α
  | [] => [x]
  | y :: ys => if comp x y then x :: y :: ys else y :: orderedInsert comp x ys

/-- The call `std::sort(first, last, comp)`, as an insertion sort that consults only `comp`.
C++ leaves the order of elements that `comp` does not separate unspecified; this
model fixes one such order. -/
def stdSort {α : Type} (comp : α → α → Bool) : List α → List α
  | [] => []
  | x :: xs => orderedInsert comp x (stdSort comp xs)

/-! ## `sortByFitness` and `evaluate` -/

/-- The function `sortByFitness(lhs, rhs)`: the comparator handed to `std::sort`. -/
def sortByFitness (lhs rhs : Genome) : Bool :=
  decide (accumulate lhs 0 > accumulate rhs 0)

/-- The function `evaluate(population)`: the population after the call. -/
def evaluate (population : Population) : Population :=
  stdSort sortByFitness population

/-! ## `selection` -/

/-- The loop of `selection`; `it` is the iterator into `population`, the list argument
holds the slots of `selections` still to be filled. -/
def selectionLoop (population : Population) : Nat → List Pairing → Option (List Pairing)
  | _, [] => some []
  | it, pair :: rest => do
    let src1 ← population[it]?
    let first ← stdCopy src1 0 src1.length pair.1 0
    let src2 ← population[it + 1]?
    let second ← stdCopy src2 0 src2.length pair.2 0
    let rest1 ← selectionLoop population (it + 2) rest
    some ((first, second) :: rest1)

/-- The function `selection(population, selections)`: the new contents of `selections`. -/
def selection (population : Population) (selections : List Pairing) : Option (List Pairing) :=
  selectionLoop population 0 selections

/-! ## `crossover` -/

/-- The body of the loop of `crossover` for one pair, with the crossover point chosen. -/
def crossoverBody (crossoverPoint : Nat) (temp : Scratch) (pair : Pairing) :
    Option (Scratch × Pairing) := do
  -- Copy from that point to the end from second to temp
  let temp1 ← stdCopy (pair.2.map some) crossoverPoint pair.2.length temp crossoverPoint
  -- Copy from that point to the end from first to second
  let second1 ← stdCopy pair.1 crossoverPoint pair.1.length pair.2 crossoverPoint
  -- Copy temp to first
  let first1 ← stdCopyFromScratch temp1 crossoverPoint temp1.length pair.1 crossoverPoint
  some (temp1, (first1, second1))

/-- The loop of `crossover`: `rand 0`, `rand 1`, … are the results of the successive
calls of `rand()`. -/
def crossoverLoop (rand : Nat → Nat) (temp : Scratch) : List Pairing → Option (List Pairing)
  | [] => some []
  | pair :: rest => do
    let (temp1, pair1) ← crossoverBody (rand 0 % 1000) temp pair
    let rest1 ← crossoverLoop (fun i => rand (i + 1)) temp1 rest
    some (pair1 :: rest1)

/-- The function `crossover(selections)`: the new contents of `selections`; `temp` starts with no entry written. -/
def crossover (rand : Nat → Nat) (selections : List Pairing) : Option (List Pairing) :=
  crossoverLoop rand (List.replicate 1000 none) selections

/-! ## `mutation` -/

/-- The random outcomes `mutation` consumes for one individual. -/
structure MutationDraw where
  /-- Outcome of the test `dis(g) < 0.08`. -/
  selected : Bool
  /-- Raw draws of `std::shuffle`, one per step. -/
  index : Nat → Nat

/-- The function `mutation(population)`; `draws i` holds the random outcomes for individual `i`. -/
def mutation (draws : Nat → MutationDraw) : Population → Population
  | [] => []
  | individual :: rest =>
    (if (draws 0).selected then stdShuffle (draws 0).index individual else individual)
      :: mutation (fun i => draws (i + 1)) rest

/-! ## `main` -/

/-- The loop of `main` that fills the population: field `j` of individual `i` receives
`rand() & 1` from call number `i * 1000 + j` of `rand()`. -/
def initPopulation (rand : Nat → Nat) : Population :=
  (List.range 100).map (fun i =>
    (List.range 1000).map (fun j => ((rand (i * 1000 + j) &&& 1 : Nat) : Int)))

/-- The loop of `main` that writes the pairs back into the population.  `individual` is
the iterator into `population`; the result is the final iterator and the population. -/
def reassembleLoop : Nat → Population → List Pairing → Option (Nat × Population)
  | individual, population, [] => some (individual, population)
  | individual, population, sel :: rest => do
    let dst1 ← population[individual]?
    let g1 ← stdCopy sel.1 0 sel.1.length dst1 0
    let population1 := population.set individual g1
    let individual1 := individual + 1
    let dst2 ← population1[individual1]?
    let g2 ← stdCopy sel.2 0 sel.2.length dst2 0
    let population2 := population1.set individual1 g2
    let individual2 := if individual1 != population.length then individual1 + 1 else individual1
    reassembleLoop individual2 population2 rest

/-- The reassembly loop started at `population.begin()`: the population it leaves. -/
def reassemble (population : Population) (selections : List Pairing) : Option Population :=
  (reassembleLoop 0 population selections).map (fun r => r.2)

/-- The function `printIndividualField(field)`: the text sent to `std::cout`. -/
def printIndividualField (field : Int) : String := toString field

/-- The text `std::for_each(best.begin(), best.end(), printIndividualField)` prints. -/
def printIndividual (best : Genome) : String :=
  String.join (best.map printIndividualField)

/-- Control points of `main`. -/
inductive Stage
  /-- At the test of the `while` loop; the population has just been evaluated. -/
  | loopTest
  /-- After `selection(population, selections)`. -/
  | selected
  /-- After `crossover(selections)`. -/
  | crossed
  /-- After the loop that writes the pairs back. -/
  | reassembled
  /-- After `mutation(population)`. -/
  | mutated
  /-- After the loop and the final prints. -/
  | finished
  deriving DecidableEq, Repr

/-- The variables of `main` and the lines written to standard output so far (the
line `Completed in …ms` is left out: it depends on the clock). -/
structure State where
  stage : Stage
  population : Population
  selections : List Pairing
  output : List String

/-- One move of `main` from a control point to the next.  `rand` and `draws` are the
random outcomes available to the stage that runs. -/
def step (rand : Nat → Nat) (draws : Nat → MutationDraw) (s : State) : Option State :=
  match s.stage with
  | .loopTest => do
    let best ← s.population.head?
    if accumulate best 0 != 1000 then
      let sel ← selection s.population s.selections
      some { stage := .selected, population := s.population, selections := sel,
             output := s.output ++ ["Current Best: " ++ toString (accumulate best 0)] }
    else
      some { stage := .finished, population := s.population, selections := s.selections,
             output := s.output ++ ["Best: " ++ toString (accumulate best 0),
                                    "Individual: " ++ printIndividual best] }
  | .selected => do
    let sel ← crossover rand s.selections
    some { s with stage := .crossed, selections := sel }
  | .crossed => do
    let population ← reassemble s.population s.selections
    some { s with stage := .reassembled, population := population }
  | .reassembled => some { s with stage := .mutated, population := mutation draws s.population }
  | .mutated => some { s with stage := .loopTest, population := evaluate s.population }
  | .finished => none

/-- The states `main` can be in: it starts at the loop test with the evaluated initial
population and with `selections` holding indeterminate (but well-typed) values, and
moves by `step` under any random outcomes. -/
inductive Reachable : State → Prop
  | init (rand : Nat → Nat) (selections : List Pairing) (h : IsSelections selections) :
      Reachable { stage := .loopTest, population := evaluate (initPopulation rand),
                  selections := selections, output := [] }
  | step (rand : Nat → Nat) (draws : Nat → MutationDraw) (s t : State)
      (hs : Reachable s) (ht : step rand draws s = some t) : Reachable t

/-- One pass through the body of the `while` loop of `main`, from a population and the
stale contents of `selections` to the next evaluated population. -/
def generation (rand : Nat → Nat) (draws : Nat → MutationDraw)
    (population : Population) (selections : List Pairing) :
    Option (Population × List Pairing) := do
  let sel ← selection population selections
  let sel1 ← crossover rand sel
  let population1 ← reassemble population sel1
  some (evaluate (mutation draws population1), sel1)

/-- The population of `100` all-one genomes. -/
def onePopulation : Population := List.replicate 100 oneGenome

/-- The state in which `main` starts when every call of `rand()` returns `1`. -/
def startOfOnes : State :=
  { stage := .loopTest, population := evaluate (initPopulation (fun _ => 1)),
    selections := zeroSelections, output := [] }

/-- The state `main` moves to from `startOfOnes`. -/
def finishedOfOnes : State :=
  { stage := .finished, population := evaluate (initPopulation (fun _ => 1)),
    selections := zeroSelections,
    output := [] ++ ["Best: " ++ toString (accumulate oneGenome 0),
                     "Individual: " ++ printIndividual oneGenome] }

/-- Indices of the source that `std::copy(src.begin() + first, src.begin() + last, …)`
reads: `first, …, last - 1`. -/
def stdCopyReads (first last : Nat) : List Nat := List.range' first (last - first)

/-- Indices of the destination that `std::copy(…, …, dst.begin() + dfirst)` writes when
it copies the range `[first, last)`: `dfirst, …, dfirst + (last - first) - 1`. -/
def stdCopyWrites (first last dfirst : Nat) : List Nat := List.range' dfirst (last - first)

/-- Indices of `temp` written by one pass of the loop body of `crossover` (first copy:
`second[crossoverPoint, end)` to `temp` from `crossoverPoint` on). -/
def crossoverTempWrites (crossoverPoint : Nat) : List Nat :=
  stdCopyWrites crossoverPoint 1000 crossoverPoint

/-- Indices of `temp` read by one pass of the loop body of `crossover` (third copy:
`temp[crossoverPoint, end)` to `first`). -/
def crossoverTempReads (crossoverPoint : Nat) : List Nat :=
  stdCopyReads crossoverPoint 1000

/-- All indices one pass of the loop body of `crossover` reads or writes in `first`,
`second` and `temp`, copy by copy. -/
def crossoverIndices (crossoverPoint : Nat) : List Nat :=
  -- Copy from that point to the end from second to temp
  stdCopyReads crossoverPoint 1000 ++ crossoverTempWrites crossoverPoint
  -- Copy from that point to the end from first to second
  ++ stdCopyReads crossoverPoint 1000 ++ stdCopyWrites crossoverPoint 1000 crossoverPoint
  -- Copy temp to first
  ++ crossoverTempReads crossoverPoint ++ stdCopyWrites crossoverPoint 1000 crossoverPoint

/-- The iterator of the reassembly loop, iteration by iteration: the slot the first copy
targets (`individual`), the slot the second copy targets (`individual` after the first
`std::next`), and the outcome of the guard `individual != population.end()` there.  The
state after each iteration is the one `reassembleLoop` computes for it. -/
def reassembleTrace : Nat → Population → List Pairing → List (Nat × Nat × Bool)
  | _, _, [] => []
  | individual, population, sel :: rest =>
    (individual, individual + 1, individual + 1 != population.length) ::
      match reassembleLoop individual population [sel] with
      | some (individual2, population2) => reassembleTrace individual2 population2 rest
      | none => []

/-- Sum of the fitnesses of all individuals of a population. -/
def totalFitness (population : Population) : Int := (population.map fitness).sum

/-- Sum of the fitnesses of all genomes held in an array of pairings. -/
def totalFitnessOfPairs (selections : List Pairing) : Int :=
  (selections.map (fun p => fitness p.1 + fitness p.2)).sum

/-- The genomes of an array of pairings in slot order: first, second, first, second, … -/
def flattenPairs : List Pairing → Population
  | [] => []
  | p :: rest => p.1 :: p.2 :: flattenPairs rest

/-- Runs of `main`: `Run s t` when `t` is reached from `s` by finitely many moves of
`step`, each under some random outcomes. -/
inductive Run (s : State) : State → Prop
  | refl : Run s s
  | step (rand : Nat → Nat) (draws : Nat → MutationDraw) (t u : State)
      (hst : Run s t) (htu : step rand draws t = some u) : Run s u

/-- The state in which `main` reaches its loop for the first time: the initial
population filled from `rand` and evaluated, `selections` holding `stale`. -/
def startState (rand : Nat → Nat) (stale : List Pairing) : State :=
  { stage := .loopTest, population := evaluate (initPopulation rand),
    selections := stale, output := [] }

/-- What every move of `main` preserves once the population is binary and its fitnesses
sum to `total`: population and `selections` stay well-typed, the population stays binary
with the same total, and between `selection` and the reassembly loop `selections` is
binary with the same total. -/
def StateInvariant (total : Int) (s : State) : Prop :=
  IsBinaryPopulation s.population ∧ IsSelections s.selections ∧
  totalFitness s.population = total ∧
  (s.stage = .selected ∨ s.stage = .crossed →
    IsBinarySelections s.selections ∧ totalFitnessOfPairs s.selections = total)

/-- Random outcomes of `mutation` under which no individual is selected. -/
def noMutation : Nat → MutationDraw := fun _ => { selected := false, index := fun _ => 0 }

/-- The genome `1, 1, 0, …, 0`. -/
def twoOnesGenome : Genome := 1 :: 1 :: List.replicate 998 0

/-- The population whose first genome is `1, 1, 0, …, 0` and whose other `99` genomes
are all-zero. -/
def elitePopulation : Population := twoOnesGenome :: List.replicate 99 zeroGenome

/-- The rearrangement of a genome with its `1`s first and its `0`s last. -/
def onesFirst (g : Genome) : Genome :=
  List.replicate (g.count 1) 1 ++ List.replicate (g.count 0) 0

/-- The rearrangement of a genome with its `0`s first and its `1`s last. -/
def onesLast (g : Genome) : Genome :=
  List.replicate (g.count 0) 0 ++ List.replicate (g.count 1) 1

/-- The genome in slot `i` of a population (the empty list outside the population). -/
def slot (population : Population) (i : Nat) : Genome := (population[i]?).getD []

/-- The order in which `evaluate` places the slots of a population: the slot numbers
`0, …, n - 1` sorted by `std::sort` with `sortByFitness` applied to the genomes in
the slots. -/
def slotOrder (population : Population) : List Nat :=
  stdSort (fun i j => sortByFitness (slot population i) (slot population j))
    (List.range population.length)

/-- A population whose first genome has its `1`s first and whose second genome has its
`1`s last. -/
def Arranged (population : Population) : Prop :=
  ∃ (gA gB : Genome) (rest : Population), population = onesFirst gA :: onesLast gB :: rest

/-! ## Proofs -/

/-! ### Small runs of the definitions -/

theorem crossoverBody_small :
    crossoverBody 2 [none, none, none, none] ([1, 1, 1, 1], [0, 0, 0, 0])
      = some ([none, none, some 0, some 0], ([1, 1, 0, 0], [0, 0, 1, 1])) := by
  decide

theorem crossoverBody_out_of_range :
    crossoverBody 5 [none, none, none, none] ([1, 1, 1, 1], [0, 0, 0, 0]) = none := by
  decide

theorem selection_small :
    selection [[1, 1], [0, 0], [1, 0], [0, 1]] [([9, 9], [9, 9]), ([9, 9], [9, 9])]
      = some [([1, 1], [0, 0]), ([1, 0], [0, 1])] := by
  decide

theorem selection_short_population :
    selection [[1, 1], [0, 0], [1, 0]] [([9, 9], [9, 9]), ([9, 9], [9, 9])] = none := by
  decide

theorem reassembleLoop_small :
    reassembleLoop 0 [[1, 1], [0, 0], [1, 0], [0, 1]] [([9, 9], [8, 8]), ([7, 7], [6, 6])]
      = some (4, [[9, 9], [8, 8], [7, 7], [6, 6]]) := by
  decide

theorem reassembleTrace_small :
    reassembleTrace 0 [[1, 1], [0, 0], [1, 0], [0, 1]] [([9, 9], [8, 8]), ([7, 7], [6, 6])]
      = [(0, 1, true), (2, 3, true)] := by
  decide

theorem reassembleTrace_odd_population :
    reassembleTrace 0 [[1, 1], [0, 0], [1, 0]] [([9, 9], [8, 8]), ([7, 7], [6, 6])]
      = [(0, 1, true), (2, 3, false)] := by
  decide

theorem crossoverTempWrites_small : crossoverTempWrites 997 = [997, 998, 999] := by
  decide

theorem crossoverTempReads_small : crossoverTempReads 997 = [997, 998, 999] := by
  decide

theorem stdCopyWrites_small : stdCopyWrites 2 5 7 = [7, 8, 9] := by
  decide

theorem onesFirst_small : onesFirst [0, 1, 0, 1, 1] = [1, 1, 1, 0, 0] := by
  decide

theorem onesLast_small : onesLast [0, 1, 0, 1, 1] = [0, 0, 1, 1, 1] := by
  decide

theorem slotOrder_small : slotOrder [[0, 0], [1, 1], [0, 1]] = [1, 2, 0] := by
  decide

theorem totalFitness_small : totalFitness [[0, 0], [1, 1], [0, 1]] = 3 := by
  decide

theorem flattenPairs_small :
    flattenPairs [([1], [2]), ([3], [4])] = [[1], [2], [3], [4]] := by
  decide

theorem evaluate_small :
    evaluate [[1, 0], [0, 0], [1, 1], [0, 1]] = [[1, 1], [0, 1], [1, 0], [0, 0]] := by
  decide

theorem stdShuffle_small :
    stdShuffle (fun i => i * 7 + 3) [1, 2, 3, 4, 5, 6] = [4, 5, 6, 2, 1, 3] := by
  decide

theorem accumulate_small : accumulate [32767, 32767, -5] 0 = 65529 := by
  decide

/-! ### Example data -/

theorem isGenome_zeroGenome : IsGenome zeroGenome := by
  refine ⟨List.length_replicate _ _, ?_⟩
  intro x hx
  rw [List.eq_of_mem_replicate hx]
  decide

theorem isGenome_oneGenome : IsGenome oneGenome := by
  refine ⟨List.length_replicate _ _, ?_⟩
  intro x hx
  rw [List.eq_of_mem_replicate hx]
  decide

theorem isPopulation_zeroPopulation : IsPopulation zeroPopulation := by
  refine ⟨List.length_replicate _ _, ?_⟩
  intro g hg
  rw [List.eq_of_mem_replicate hg]
  exact isGenome_zeroGenome

theorem isSelections_zeroSelections : IsSelections zeroSelections := by
  refine ⟨List.length_replicate _ _, ?_⟩
  intro p hp
  rw [List.eq_of_mem_replicate hp]
  exact ⟨isGenome_zeroGenome, isGenome_zeroGenome⟩

/-! ### `int` accumulation and fitness -/

theorem wrapInt_of_range (x : Int) (h1 : -2147483648 ≤ x) (h2 : x ≤ 2147483647) :
    wrapInt x = x := by
  unfold wrapInt
  omega

theorem accumulate_eq_sum (g : Genome) :
    ∀ init : Int, (∀ x ∈ g, IsShort x) →
      -2147483648 + 32768 * (g.length : Int) ≤ init →
      init ≤ 2147483647 - 32768 * (g.length : Int) →
      accumulate g init = init + g.sum := by
  induction g with
  | nil => intro init _ _ _; simp [accumulate]
  | cons x xs ih =>
    intro init hs hlo hhi
    have hx : IsShort x := hs x (List.mem_cons_self _ _)
    unfold IsShort at hx
    simp only [List.length_cons, Nat.cast_add, Nat.cast_one] at hlo hhi
    have hw : wrapInt (init + x) = init + x := wrapInt_of_range _ (by omega) (by omega)
    have := ih (init + x) (fun y hy => hs y (List.mem_cons_of_mem _ hy)) (by omega) (by omega)
    simp only [accumulate, List.foldl_cons, hw, List.sum_cons] at this ⊢
    rw [this]
    ring

theorem accumulate_eq_fitness (g : Genome) (h : IsGenome g) : accumulate g 0 = fitness g := by
  have hlen : (g.length : Int) = 1000 := by rw [h.1]; rfl
  have := accumulate_eq_sum g 0 h.2 (by omega) (by omega)
  simpa [fitness] using this

/-! ### `std::sort` -/

theorem orderedInsert_perm {α : Type} (comp : α → α → Bool) (x : α) (l : List α) :
    (orderedInsert comp x l).Perm (x :: l) := by
  induction l with
  | nil => exact List.Perm.refl _
  | cons y ys ih =>
    unfold orderedInsert
    split
    · exact List.Perm.refl _
    · exact (List.Perm.cons y ih).trans (List.Perm.swap x y ys)

theorem stdSort_perm {α : Type} (comp : α → α → Bool) (l : List α) :
    (stdSort comp l).Perm l := by
  induction l with
  | nil => exact List.Perm.refl _
  | cons x xs ih =>
    exact (orderedInsert_perm comp x _).trans (List.Perm.cons x ih)

theorem orderedInsert_pairwise {α : Type} (comp : α → α → Bool) (key : α → Int)
    (hcomp : ∀ a b, comp a b = true ↔ key b < key a) (x : α) (l : List α)
    (hl : l.Pairwise (fun a b => key b ≤ key a)) :
    (orderedInsert comp x l).Pairwise (fun a b => key b ≤ key a) := by
  induction l with
  | nil => simp [orderedInsert]
  | cons y ys ih =>
    rw [List.pairwise_cons] at hl
    unfold orderedInsert
    by_cases hxy : comp x y = true
    · rw [if_pos hxy]
      have hlt : key y < key x := (hcomp x y).1 hxy
      refine List.pairwise_cons.2 ⟨?_, List.pairwise_cons.2 hl⟩
      intro z hz
      rcases List.mem_cons.1 hz with rfl | hz
      · exact hlt.le
      · exact (hl.1 z hz).trans hlt.le
    · rw [if_neg hxy]
      have hle : key x ≤ key y := by
        by_contra hcon
        exact hxy ((hcomp x y).2 (not_le.1 hcon))
      refine List.pairwise_cons.2 ⟨?_, ih hl.2⟩
      intro z hz
      rcases List.mem_cons.1 ((orderedInsert_perm comp x ys).subset hz) with rfl | hz
      · exact hle
      · exact hl.1 z hz

theorem stdSort_pairwise {α : Type} (comp : α → α → Bool) (key : α → Int)
    (hcomp : ∀ a b, comp a b = true ↔ key b < key a) (l : List α) :
    (stdSort comp l).Pairwise (fun a b => key b ≤ key a) := by
  induction l with
  | nil => exact List.Pairwise.nil
  | cons x xs ih => exact orderedInsert_pairwise comp key hcomp x _ ih

theorem sortByFitness_iff (a b : Genome) :
    sortByFitness a b = true ↔ accumulate b 0 < accumulate a 0 := by
  simp [sortByFitness]

theorem evaluate_perm (population : Population) : (evaluate population).Perm population :=
  stdSort_perm _ _

theorem evaluate_pairwise (population : Population) :
    (evaluate population).Pairwise (fun a b => accumulate b 0 ≤ accumulate a 0) :=
  stdSort_pairwise sortByFitness (fun g => accumulate g 0) sortByFitness_iff population

theorem evaluate_pairwise_fitness (population : Population) (h : ∀ g ∈ population, IsGenome g) :
    (evaluate population).Pairwise (fun a b => fitness b ≤ fitness a) := by
  have hmem : ∀ g ∈ evaluate population, IsGenome g :=
    fun g hg => h g ((evaluate_perm population).subset hg)
  refine List.Pairwise.imp_of_mem ?_ (evaluate_pairwise population)
  intro a b ha hb hab
  rw [← accumulate_eq_fitness a (hmem a ha), ← accumulate_eq_fitness b (hmem b hb)]
  exact hab

/-! ### `crossover` -/

theorem readWritten_map_some (xs : List Int) : readWritten (xs.map some) = some xs := by
  induction xs with
  | nil => rfl
  | cons x xs ih => simp [readWritten, ih]

theorem stdCopy_suffix {α : Type} (src dst : List α) (c : Nat)
    (h : src.length = dst.length) (hc : c ≤ src.length) :
    stdCopy src c src.length dst c = some (dst.take c ++ src.drop c) := by
  unfold stdCopy
  rw [if_pos ⟨hc, le_refl _, by omega⟩]
  have e1 : (src.drop c).take (src.length - c) = src.drop c :=
    List.take_of_length_le (by simp)
  have e2 : dst.drop (c + (src.length - c)) = [] :=
    List.drop_eq_nil_of_le (by omega)
  rw [e1, e2, List.append_nil]

theorem stdCopy_whole {α : Type} (src dst : List α) (h : src.length = dst.length) :
    stdCopy src 0 src.length dst 0 = some src := by
  rw [stdCopy_suffix src dst 0 h (Nat.zero_le _)]
  simp

theorem stdCopyFromScratch_suffix (pre : Scratch) (xs : List Int) (dst : Genome) (c : Nat)
    (hpre : pre.length = c) (h : c + xs.length = dst.length) :
    stdCopyFromScratch (pre ++ xs.map some) c (pre ++ xs.map some).length dst c
      = some (dst.take c ++ xs) := by
  unfold stdCopyFromScratch
  have hlen : (pre ++ xs.map some).length = c + xs.length := by simp [hpre]
  rw [if_pos ⟨by omega, le_refl _, by omega⟩]
  have e0 : (pre ++ xs.map some).drop c = xs.map some := by
    rw [← hpre]; exact List.drop_left _ _
  have e1 : (xs.map some).take ((pre ++ xs.map some).length - c) = xs.map some :=
    List.take_of_length_le (by simp; omega)
  have e2 : dst.drop (c + ((pre ++ xs.map some).length - c)) = [] :=
    List.drop_eq_nil_of_le (by omega)
  rw [e0, e1, e2, readWritten_map_some]
  simp

theorem crossoverBody_eq (c : Nat) (temp : Scratch) (A B : Genome)
    (hAB : A.length = B.length) (ht : temp.length = A.length) (hc : c ≤ A.length) :
    crossoverBody c temp (A, B)
      = some (temp.take c ++ (B.drop c).map some, (A.take c ++ B.drop c, B.take c ++ A.drop c)) := by
  have h1 : stdCopy (B.map some) c B.length temp c = some (temp.take c ++ (B.drop c).map some) := by
    have := stdCopy_suffix (B.map some) temp c (by simp; omega) (by simp; omega)
    simpa [List.map_drop] using this
  have h2 : stdCopy A c A.length B c = some (B.take c ++ A.drop c) :=
    stdCopy_suffix A B c hAB hc
  have h3 : stdCopyFromScratch (temp.take c ++ (B.drop c).map some) c
      (temp.take c ++ (B.drop c).map some).length A c = some (A.take c ++ B.drop c) :=
    stdCopyFromScratch_suffix _ _ _ _ (by simp; omega) (by simp; omega)
  simp only [crossoverBody, h1, h2, h3, Option.bind_eq_bind, Option.some_bind]

theorem crossoverLoop_spec (selections : List Pairing) :
    ∀ (rand : Nat → Nat) (temp : Scratch), temp.length = L →
      (∀ p ∈ selections, p.1.length = L ∧ p.2.length = L) →
      ∃ out, crossoverLoop rand temp selections = some out ∧ out.length = selections.length ∧
        ∀ (k : Nat) (A B : Genome), selections[k]? = some (A, B) →
          out[k]? = some (A.take (rand k % L) ++ B.drop (rand k % L),
                          B.take (rand k % L) ++ A.drop (rand k % L)) := by
  induction selections with
  | nil =>
    intro rand temp _ _
    exact ⟨[], rfl, rfl, by simp⟩
  | cons pair rest ih =>
    intro rand temp ht hsz
    obtain ⟨A, B⟩ := pair
    have hA : A.length = L := (hsz (A, B) (List.mem_cons_self _ _)).1
    have hB : B.length = L := (hsz (A, B) (List.mem_cons_self _ _)).2
    have hc : rand 0 % 1000 ≤ A.length := by rw [hA]; exact (Nat.mod_lt _ (by decide)).le
    have hbody := crossoverBody_eq (rand 0 % 1000) temp A B (by omega) (by omega) hc
    have ht1 : (temp.take (rand 0 % 1000) ++ (B.drop (rand 0 % 1000)).map some).length = L := by
      simp only [List.length_append, List.length_take, List.length_map, List.length_drop]
      omega
    obtain ⟨out, hout, hlen, hget⟩ := ih (fun i => rand (i + 1)) _ ht1
      (fun p hp => hsz p (List.mem_cons_of_mem _ hp))
    refine ⟨(A.take (rand 0 % 1000) ++ B.drop (rand 0 % 1000),
      B.take (rand 0 % 1000) ++ A.drop (rand 0 % 1000)) :: out, ?_, by simp [hlen], ?_⟩
    · simp only [crossoverLoop, hbody, hout, Option.bind_eq_bind, Option.some_bind]
    · intro k A' B' hk
      cases k with
      | zero =>
        simp only [List.getElem?_cons_zero, Option.some.injEq, Prod.mk.injEq] at hk
        obtain ⟨rfl, rfl⟩ := hk
        simp
      | succ k =>
        simp only [List.getElem?_cons_succ] at hk ⊢
        exact hget k A' B' hk

/-! ### `std::shuffle` and `mutation` -/

theorem set_cons_perm {α : Type} (xs : List α) :
    ∀ (j : Nat) (b x : α), xs[j]? = some b → (b :: xs.set j x).Perm (x :: xs) := by
  induction xs with
  | nil => intro j b x h; simp at h
  | cons y ys ih =>
    intro j b x h
    cases j with
    | zero =>
      simp only [List.getElem?_cons_zero, Option.some.injEq] at h
      subst h
      exact List.Perm.swap _ _ _
    | succ j =>
      simp only [List.getElem?_cons_succ] at h
      have h1 : (b :: y :: ys.set j x).Perm (y :: b :: ys.set j x) := List.Perm.swap _ _ _
      have h2 : (y :: b :: ys.set j x).Perm (y :: x :: ys) := List.Perm.cons y (ih j b x h)
      exact (h1.trans h2).trans (List.Perm.swap _ _ _)

theorem set_set_perm_of_getElem? {α : Type} (l : List α) :
    ∀ (i j : Nat) (a b : α), l[i]? = some a → l[j]? = some b →
      ((l.set i b).set j a).Perm l := by
  induction l with
  | nil => intro i j a b h; simp at h
  | cons x xs ih =>
    intro i j a b hi hj
    cases i with
    | zero =>
      simp only [List.getElem?_cons_zero, Option.some.injEq] at hi
      subst hi
      cases j with
      | zero =>
        simp only [List.getElem?_cons_zero, Option.some.injEq] at hj
        subst hj
        exact List.Perm.refl _
      | succ j =>
        simp only [List.getElem?_cons_succ] at hj
        exact set_cons_perm xs j b x hj
    | succ i =>
      simp only [List.getElem?_cons_succ] at hi
      cases j with
      | zero =>
        simp only [List.getElem?_cons_zero, Option.some.injEq] at hj
        subst hj
        exact set_cons_perm xs i a x hi
      | succ j =>
        simp only [List.getElem?_cons_succ] at hj
        exact List.Perm.cons x (ih i j a b hi hj)

theorem swapAt_perm {α : Type} (l : List α) (i j : Nat) : (swapAt l i j).Perm l := by
  unfold swapAt
  split
  · next a b hi hj => exact set_set_perm_of_getElem? l i j a b hi hj
  · exact List.Perm.refl _

theorem foldl_swapAt_perm (f : Nat → Nat) (steps : List Nat) :
    ∀ g : Genome, (steps.foldl (fun acc i => swapAt acc i (f i)) g).Perm g := by
  induction steps with
  | nil => intro g; exact List.Perm.refl _
  | cons i rest ih =>
    intro g
    exact (ih (swapAt g i (f i))).trans (swapAt_perm g i (f i))

theorem stdShuffle_perm (index : Nat → Nat) (g : Genome) : (stdShuffle index g).Perm g :=
  foldl_swapAt_perm (fun i => index i % (i + 1)) _ g

theorem mutation_length (population : Population) :
    ∀ draws : Nat → MutationDraw, (mutation draws population).length = population.length := by
  induction population with
  | nil => intro _; rfl
  | cons g rest ih => intro draws; simp [mutation, ih]

theorem mutation_getElem? (population : Population) :
    ∀ (draws : Nat → MutationDraw) (i : Nat) (g : Genome), population[i]? = some g →
      (mutation draws population)[i]? =
        some (if (draws i).selected then stdShuffle (draws i).index g else g) := by
  induction population with
  | nil => intro _ i g h; simp at h
  | cons g0 rest ih =>
    intro draws i g h
    cases i with
    | zero =>
      simp only [List.getElem?_cons_zero, Option.some.injEq] at h
      subst h
      simp [mutation]
    | succ i =>
      simp only [List.getElem?_cons_succ] at h
      simp only [mutation, List.getElem?_cons_succ]
      exact ih (fun k => draws (k + 1)) i g h

theorem mutation_perm_each (population : Population) (draws : Nat → MutationDraw)
    (i : Nat) (g : Genome) (h : population[i]? = some g) :
    ∃ g', (mutation draws population)[i]? = some g' ∧ g'.Perm g := by
  refine ⟨_, mutation_getElem? population draws i g h, ?_⟩
  split
  · exact stdShuffle_perm _ _
  · exact List.Perm.refl _

/-! ### `selection` -/

theorem selectionLoop_spec (population : Population) (m : Nat)
    (hpop : ∀ g ∈ population, g.length = m) (selections : List Pairing) :
    ∀ it : Nat, it + 2 * selections.length ≤ population.length →
      (∀ p ∈ selections, p.1.length = m ∧ p.2.length = m) →
      ∃ out, selectionLoop population it selections = some out ∧
        out.length = selections.length ∧
        ∀ k, k < selections.length → ∃ a b, population[it + 2 * k]? = some a ∧
          population[it + 2 * k + 1]? = some b ∧ out[k]? = some (a, b) := by
  induction selections with
  | nil =>
    intro it _ _
    exact ⟨[], rfl, rfl, fun k hk => absurd hk (Nat.not_lt_zero k)⟩
  | cons pair rest ih =>
    intro it hit hsel
    simp only [List.length_cons] at hit
    have h0 : it < population.length := by omega
    have h1 : it + 1 < population.length := by omega
    have hp := hsel pair (List.mem_cons_self _ _)
    have e0 : population[it]? = some population[it] := List.getElem?_eq_getElem h0
    have e1 : population[it + 1]? = some population[it + 1] := List.getElem?_eq_getElem h1
    have c0 : stdCopy population[it] 0 population[it].length pair.1 0 = some population[it] :=
      stdCopy_whole _ _ (by rw [hpop _ (List.getElem_mem h0), hp.1])
    have c1 : stdCopy population[it + 1] 0 population[it + 1].length pair.2 0
        = some population[it + 1] :=
      stdCopy_whole _ _ (by rw [hpop _ (List.getElem_mem h1), hp.2])
    obtain ⟨out, hout, hlen, hget⟩ := ih (it + 2) (by omega)
      (fun p hp => hsel p (List.mem_cons_of_mem _ hp))
    refine ⟨(population[it], population[it + 1]) :: out, ?_, by simp [hlen], ?_⟩
    · simp only [selectionLoop, e0, c0, e1, c1, hout, Option.bind_eq_bind, Option.some_bind]
    · intro k hk
      cases k with
      | zero => exact ⟨_, _, e0, e1, by simp⟩
      | succ k =>
        obtain ⟨a, b, ha, hb, hab⟩ := hget k (by simpa using hk)
        refine ⟨a, b, ?_, ?_, by simpa using hab⟩
        · rw [← ha]; congr 1; omega
        · rw [← hb]; congr 1; omega

/-! ### The reassembly loop -/

theorem reassembleLoop_spec (m : Nat) (selections : List Pairing) :
    ∀ (individual : Nat) (population : Population),
      individual + 2 * selections.length ≤ population.length →
      (∀ g ∈ population, g.length = m) →
      (∀ p ∈ selections, p.1.length = m ∧ p.2.length = m) →
      ∃ out, reassembleLoop individual population selections
          = some (individual + 2 * selections.length, out) ∧
        out.length = population.length ∧
        (∀ k, k < selections.length → ∃ a b, selections[k]? = some (a, b) ∧
          out[individual + 2 * k]? = some a ∧ out[individual + 2 * k + 1]? = some b) ∧
        (∀ j, j < individual ∨ individual + 2 * selections.length ≤ j →
          out[j]? = population[j]?) := by
  induction selections with
  | nil =>
    intro individual population _ _ _
    exact ⟨population, rfl, rfl, fun k hk => absurd hk (Nat.not_lt_zero k), fun _ _ => rfl⟩
  | cons sel rest ih =>
    intro individual population hind hpop hsel
    simp only [List.length_cons] at hind
    have h0 : individual < population.length := by omega
    have h1 : individual + 1 < population.length := by omega
    have hp := hsel sel (List.mem_cons_self _ _)
    have e0 : population[individual]? = some population[individual] :=
      List.getElem?_eq_getElem h0
    have c0 : stdCopy sel.1 0 sel.1.length population[individual] 0 = some sel.1 :=
      stdCopy_whole _ _ (by rw [hpop _ (List.getElem_mem h0), hp.1])
    have e1 : (population.set individual sel.1)[individual + 1]?
        = some population[individual + 1] := by
      rw [List.getElem?_set_ne (by omega)]
      exact List.getElem?_eq_getElem h1
    have c1 : stdCopy sel.2 0 sel.2.length population[individual + 1] 0 = some sel.2 :=
      stdCopy_whole _ _ (by rw [hpop _ (List.getElem_mem h1), hp.2])
    have hguard : (individual + 1 != population.length) = true := by
      simp only [bne_iff_ne, ne_eq]; omega
    have hpop2 : ∀ g ∈ (population.set individual sel.1).set (individual + 1) sel.2,
        g.length = m := by
      intro g hg
      rcases List.mem_or_eq_of_mem_set hg with hg | rfl
      · rcases List.mem_or_eq_of_mem_set hg with hg | rfl
        · exact hpop g hg
        · exact hp.1
      · exact hp.2
    obtain ⟨out, hout, hlen, hget, hframe⟩ := ih (individual + 1 + 1)
      ((population.set individual sel.1).set (individual + 1) sel.2)
      (by simp only [List.length_set]; omega) hpop2
      (fun p hp => hsel p (List.mem_cons_of_mem _ hp))
    refine ⟨out, ?_, by simpa using hlen, ?_, ?_⟩
    · simp only [reassembleLoop, e0, c0, e1, c1, hguard, if_true, Option.bind_eq_bind,
        Option.some_bind]
      rw [hout]
      congr 2
      simp only [List.length_cons]
      omega
    · intro k hk
      cases k with
      | zero =>
        refine ⟨sel.1, sel.2, by simp, ?_, ?_⟩ <;>
          simp only [Nat.mul_zero, Nat.add_zero]
        · rw [hframe individual (Or.inl (by omega)), List.getElem?_set_ne (by omega),
            List.getElem?_set_self h0]
        · rw [hframe (individual + 1) (Or.inl (by omega)),
            List.getElem?_set_self (by simp only [List.length_set]; omega)]
      | succ k =>
        obtain ⟨a, b, hab, ha, hb⟩ := hget k (by simpa using hk)
        refine ⟨a, b, by simpa using hab, ?_, ?_⟩
        · rw [← ha]; congr 1; omega
        · rw [← hb]; congr 1; omega
    · intro j hj
      simp only [List.length_cons] at hj
      rw [hframe j (by omega), List.getElem?_set_ne (by omega), List.getElem?_set_ne (by omega)]

/-! ### Each stage keeps the shape of its arrays and the domain of their entries -/

theorem isPopulation_iff (population : Population) :
    IsPopulation population ↔ PopulationOf IsShort population := Iff.rfl

theorem isSelections_iff (selections : List Pairing) :
    IsSelections selections ↔ SelectionsOf IsShort selections := Iff.rfl

theorem isBinaryPopulation_iff (population : Population) :
    IsBinaryPopulation population ↔ PopulationOf (fun x => x = 0 ∨ x = 1) population := Iff.rfl

theorem isBinarySelections_iff (selections : List Pairing) :
    IsBinarySelections selections ↔ SelectionsOf (fun x => x = 0 ∨ x = 1) selections := Iff.rfl

theorem evaluate_populationOf (P : Int → Prop) (population : Population)
    (h : PopulationOf P population) : PopulationOf P (evaluate population) :=
  ⟨(evaluate_perm population).length_eq.trans h.1,
    fun g hg => h.2 g ((evaluate_perm population).subset hg)⟩

theorem mutation_populationOf (P : Int → Prop) (draws : Nat → MutationDraw)
    (population : Population) (h : PopulationOf P population) :
    PopulationOf P (mutation draws population) := by
  refine ⟨(mutation_length population draws).trans h.1, ?_⟩
  intro g' hg'
  obtain ⟨i, hi⟩ := List.mem_iff_getElem?.1 hg'
  have hlt : i < population.length := by
    have := (List.getElem?_eq_some_iff.1 hi).1
    rwa [mutation_length] at this
  obtain ⟨g'', hg'', hperm⟩ := mutation_perm_each population draws i population[i]
    (List.getElem?_eq_getElem hlt)
  rw [hi] at hg''
  cases hg''
  have hg := h.2 population[i] (List.getElem_mem hlt)
  exact ⟨hperm.length_eq.trans hg.1, fun x hx => hg.2 x (hperm.subset hx)⟩

theorem selection_selectionsOf (P Q : Int → Prop) (population : Population)
    (selections : List Pairing) (hp : PopulationOf P population)
    (hs : SelectionsOf Q selections) :
    ∃ out, selection population selections = some out ∧ SelectionsOf P out ∧
      ∀ k, k < 50 → ∃ a b, population[2 * k]? = some a ∧
        population[2 * k + 1]? = some b ∧ out[k]? = some (a, b) := by
  obtain ⟨out, hout, hlen, hget⟩ := selectionLoop_spec population L (fun g hg => (hp.2 g hg).1)
    selections 0 (by rw [hs.1, hp.1])
    (fun p hq => ⟨(hs.2 p hq).1.1, (hs.2 p hq).2.1⟩)
  have hget' : ∀ k, k < 50 → ∃ a b, population[2 * k]? = some a ∧
      population[2 * k + 1]? = some b ∧ out[k]? = some (a, b) := by
    intro k hk
    obtain ⟨a, b, ha, hb, hab⟩ := hget k (by rw [hs.1]; exact hk)
    simp only [Nat.zero_add] at ha hb
    exact ⟨a, b, ha, hb, hab⟩
  refine ⟨out, hout, ⟨hlen.trans hs.1, ?_⟩, hget'⟩
  intro p hp'
  obtain ⟨k, hk⟩ := List.mem_iff_getElem?.1 hp'
  have hk50 : k < 50 := by
    have := (List.getElem?_eq_some_iff.1 hk).1
    rw [hlen, hs.1] at this
    exact this
  obtain ⟨a, b, ha, hb, hab⟩ := hget' k hk50
  rw [hk] at hab
  cases hab
  exact ⟨hp.2 a (List.getElem?_mem ha), hp.2 b (List.getElem?_mem hb)⟩

theorem crossover_selectionsOf (P : Int → Prop) (rand : Nat → Nat)
    (selections : List Pairing) (hs : SelectionsOf P selections) :
    ∃ out, crossover rand selections = some out ∧ SelectionsOf P out := by
  obtain ⟨out, hout, hlen, hget⟩ := crossoverLoop_spec selections rand (List.replicate 1000 none)
    (List.length_replicate _ _) (fun p hq => ⟨(hs.2 p hq).1.1, (hs.2 p hq).2.1⟩)
  refine ⟨out, hout, ⟨hlen.trans hs.1, ?_⟩⟩
  intro p hp
  obtain ⟨k, hk⟩ := List.mem_iff_getElem?.1 hp
  have hklt : k < selections.length := by
    have := (List.getElem?_eq_some_iff.1 hk).1
    rwa [hlen] at this
  have hsel := hs.2 selections[k] (List.getElem_mem hklt)
  have hout_k := hget k selections[k].1 selections[k].2 (List.getElem?_eq_getElem hklt)
  rw [hk] at hout_k
  cases hout_k
  have hc : rand k % L < L := Nat.mod_lt _ (by decide)
  have hA := hsel.1.1
  have hB := hsel.2.1
  refine ⟨⟨?_, ?_⟩, ⟨?_, ?_⟩⟩
  · simp only [List.length_append, List.length_take, List.length_drop]; omega
  · intro x hx
    rcases List.mem_append.1 hx with hx | hx
    · exact hsel.1.2 x (List.mem_of_mem_take hx)
    · exact hsel.2.2 x (List.mem_of_mem_drop hx)
  · simp only [List.length_append, List.length_take, List.length_drop]; omega
  · intro x hx
    rcases List.mem_append.1 hx with hx | hx
    · exact hsel.2.2 x (List.mem_of_mem_take hx)
    · exact hsel.1.2 x (List.mem_of_mem_drop hx)

theorem reassemble_populationOf (P Q : Int → Prop) (population : Population)
    (selections : List Pairing) (hp : PopulationOf Q population)
    (hs : SelectionsOf P selections) :
    ∃ out, reassembleLoop 0 population selections = some (100, out) ∧ PopulationOf P out ∧
      ∀ k, k < 50 → ∃ a b, selections[k]? = some (a, b) ∧
        out[2 * k]? = some a ∧ out[2 * k + 1]? = some b := by
  obtain ⟨out, hout, hlen, hget, _⟩ := reassembleLoop_spec L selections 0 population
    (by rw [hs.1, hp.1]) (fun g hg => (hp.2 g hg).1)
    (fun p hq => ⟨(hs.2 p hq).1.1, (hs.2 p hq).2.1⟩)
  rw [hs.1] at hout
  have hget' : ∀ k, k < 50 → ∃ a b, selections[k]? = some (a, b) ∧
      out[2 * k]? = some a ∧ out[2 * k + 1]? = some b := by
    intro k hk
    obtain ⟨a, b, hab, ha, hb⟩ := hget k (by rw [hs.1]; exact hk)
    simp only [Nat.zero_add] at ha hb
    exact ⟨a, b, hab, ha, hb⟩
  refine ⟨out, hout, ⟨hlen.trans hp.1, ?_⟩, hget'⟩
  intro g hg
  obtain ⟨j, hj⟩ := List.mem_iff_getElem?.1 hg
  have hj100 : j < 100 := by
    have := (List.getElem?_eq_some_iff.1 hj).1
    rw [hlen, hp.1] at this
    exact this
  obtain ⟨a, b, hab, ha, hb⟩ := hget' (j / 2) (by omega)
  have hmem := hs.2 (a, b) (List.getElem?_mem hab)
  rcases Nat.mod_two_eq_zero_or_one j with hpar | hpar
  · have e : 2 * (j / 2) = j := by omega
    rw [e, hj] at ha
    cases ha
    exact hmem.1
  · have e : 2 * (j / 2) + 1 = j := by omega
    rw [e, hj] at hb
    cases hb
    exact hmem.2

theorem initPopulation_binary (rand : Nat → Nat) :
    PopulationOf (fun x => x = 0 ∨ x = 1) (initPopulation rand) := by
  refine ⟨by simp [initPopulation], ?_⟩
  intro g hg
  simp only [initPopulation, List.mem_map, List.mem_range] at hg
  obtain ⟨i, _, rfl⟩ := hg
  refine ⟨by simp, ?_⟩
  intro x hx
  simp only [List.mem_map, List.mem_range] at hx
  obtain ⟨j, _, rfl⟩ := hx
  rw [Nat.and_one_is_mod]
  rcases Nat.mod_two_eq_zero_or_one (rand (i * 1000 + j)) with h | h <;> simp [h]

theorem populationOf_mono (P Q : Int → Prop) (hPQ : ∀ x, P x → Q x) (population : Population)
    (h : PopulationOf P population) : PopulationOf Q population :=
  ⟨h.1, fun g hg => ⟨(h.2 g hg).1, fun x hx => hPQ x ((h.2 g hg).2 x hx)⟩⟩

theorem selectionsOf_mono (P Q : Int → Prop) (hPQ : ∀ x, P x → Q x) (selections : List Pairing)
    (h : SelectionsOf P selections) : SelectionsOf Q selections :=
  ⟨h.1, fun p hp => ⟨⟨(h.2 p hp).1.1, fun x hx => hPQ x ((h.2 p hp).1.2 x hx)⟩,
    ⟨(h.2 p hp).2.1, fun x hx => hPQ x ((h.2 p hp).2.2 x hx)⟩⟩⟩

theorem isShort_of_bit (x : Int) (h : x = 0 ∨ x = 1) : IsShort x := by
  unfold IsShort
  omega

/-! ### States of `main` -/

theorem reachable_invariant (s : State) (h : Reachable s) :
    PopulationOf (fun x => x = 0 ∨ x = 1) s.population ∧
    SelectionsOf IsShort s.selections ∧
    (s.stage ≠ .loopTest → s.stage ≠ .finished →
      SelectionsOf (fun x => x = 0 ∨ x = 1) s.selections) := by
  induction h with
  | init rand selections hsel =>
    have hinit : PopulationOf (fun x => x = 0 ∨ x = 1) (evaluate (initPopulation rand)) :=
      evaluate_populationOf (fun x => x = 0 ∨ x = 1) (initPopulation rand)
        (initPopulation_binary rand)
    refine ⟨?_, ?_, ?_⟩
    · dsimp only
      exact hinit
    · exact hsel
    · intro hst _
      exact absurd rfl hst
  | step rand draws s t _ ht ih =>
    obtain ⟨stage, population, selections, output⟩ := s
    obtain ⟨hpop, hshort, hbin⟩ := ih
    simp only at hpop hshort hbin
    cases stage with
    | loopTest =>
      simp only [step, Option.bind_eq_bind] at ht
      cases hh : population.head? with
      | none => simp [hh] at ht
      | some best =>
        simp only [hh, Option.some_bind] at ht
        by_cases hc : (accumulate best 0 != 1000) = true
        · rw [if_pos hc] at ht
          obtain ⟨out, hout, hsel, _⟩ :=
            selection_selectionsOf _ IsShort population selections hpop hshort
          simp only [hout, Option.some_bind, Option.some.injEq] at ht
          subst ht
          exact ⟨hpop, selectionsOf_mono _ _ isShort_of_bit _ hsel, fun _ _ => hsel⟩
        · rw [if_neg hc] at ht
          simp only [Option.some.injEq] at ht
          subst ht
          exact ⟨hpop, hshort, fun _ hst => absurd rfl hst⟩
    | selected =>
      simp only [step, Option.bind_eq_bind] at ht
      obtain ⟨out, hout, hsel⟩ :=
        crossover_selectionsOf _ rand selections (hbin (by simp) (by simp))
      simp only [hout, Option.some_bind, Option.some.injEq] at ht
      subst ht
      exact ⟨hpop, selectionsOf_mono _ _ isShort_of_bit _ hsel, fun _ _ => hsel⟩
    | crossed =>
      simp only [step, Option.bind_eq_bind] at ht
      obtain ⟨out, hout, hnew, _⟩ :=
        reassemble_populationOf _ _ population selections hpop (hbin (by simp) (by simp))
      simp only [reassemble, hout, Option.map_some', Option.some_bind, Option.some.injEq] at ht
      subst ht
      exact ⟨hnew, hshort, fun _ _ => hbin (by simp) (by simp)⟩
    | reassembled =>
      simp only [step, Option.some.injEq] at ht
      subst ht
      exact ⟨mutation_populationOf _ draws population hpop, hshort,
        fun _ _ => hbin (by simp) (by simp)⟩
    | mutated =>
      simp only [step, Option.some.injEq] at ht
      subst ht
      exact ⟨evaluate_populationOf _ population hpop, hshort, fun hst _ => absurd rfl hst⟩
    | finished => simp [step] at ht

theorem binary_sum_bounds (g : Genome) (h : IsBinary g) :
    0 ≤ g.sum ∧ g.sum ≤ (g.length : Int) := by
  induction g with
  | nil => simp
  | cons x xs ih =>
    have hx := h x (List.mem_cons_self _ _)
    have := ih (fun y hy => h y (List.mem_cons_of_mem _ hy))
    simp only [List.sum_cons, List.length_cons, Nat.cast_add, Nat.cast_one]
    omega

theorem binary_fitness_bounds (g : Genome) (h : GenomeOf (fun x => x = 0 ∨ x = 1) g) :
    0 ≤ fitness g ∧ fitness g ≤ (L : Int) := by
  have := binary_sum_bounds g h.2
  rw [h.1] at this
  exact this

theorem finished_inversion (s : State) (h : Reachable s) (hfin : s.stage = .finished) :
    ∃ (best : Genome) (earlier : List String), s.population.head? = some best ∧
      accumulate best 0 = 1000 ∧
      s.output = earlier ++ ["Best: " ++ toString (accumulate best 0),
                             "Individual: " ++ printIndividual best] := by
  cases h with
  | init rand selections hsel => cases hfin
  | step rand draws s0 t _ ht =>
    obtain ⟨stage, population, selections, output⟩ := s0
    cases stage with
    | loopTest =>
      simp only [step, Option.bind_eq_bind] at ht
      cases hh : population.head? with
      | none => simp [hh] at ht
      | some best =>
        simp only [hh, Option.some_bind] at ht
        by_cases hc : (accumulate best 0 != 1000) = true
        · rw [if_pos hc] at ht
          cases hsel : selection population selections with
          | none => simp [hsel] at ht
          | some sel =>
            simp only [hsel, Option.some_bind, Option.some.injEq] at ht
            subst ht
            cases hfin
        · rw [if_neg hc] at ht
          simp only [Option.some.injEq] at ht
          subst ht
          refine ⟨best, output, hh, ?_, rfl⟩
          simpa using hc
    | selected =>
      simp only [step, Option.bind_eq_bind] at ht
      cases hsel : crossover rand selections with
      | none => simp [hsel] at ht
      | some sel =>
        simp only [hsel, Option.some_bind, Option.some.injEq] at ht
        subst ht
        cases hfin
    | crossed =>
      simp only [step, Option.bind_eq_bind] at ht
      cases hre : reassemble population selections with
      | none => simp [hre] at ht
      | some pop =>
        simp only [hre, Option.some_bind, Option.some.injEq] at ht
        subst ht
        cases hfin
    | reassembled =>
      simp only [step, Option.some.injEq] at ht
      subst ht
      cases hfin
    | mutated =>
      simp only [step, Option.some.injEq] at ht
      subst ht
      cases hfin
    | finished => simp [step] at ht

theorem binary_sum_eq_length (g : Genome) (h : IsBinary g) (hs : g.sum = (g.length : Int)) :
    g = List.replicate g.length 1 := by
  induction g with
  | nil => rfl
  | cons x xs ih =>
    have hx := h x (List.mem_cons_self _ _)
    have hxs : IsBinary xs := fun y hy => h y (List.mem_cons_of_mem _ hy)
    have hb := binary_sum_bounds xs hxs
    simp only [List.sum_cons, List.length_cons, Nat.cast_add, Nat.cast_one] at hs
    have hx1 : x = 1 := by omega
    have hs' : xs.sum = (xs.length : Int) := by omega
    rw [List.length_cons, List.replicate_succ, ← ih hxs hs', hx1]

theorem flatten_replicate_singleton (c : Char) (n : Nat) :
    (List.replicate n [c]).flatten = List.replicate n c := by
  induction n with
  | zero => rfl
  | succ n ih => simp [List.replicate_succ, ih]

theorem printIndividual_ones (n : Nat) :
    printIndividual (List.replicate n 1) = String.mk (List.replicate n '1') := by
  have h1 : printIndividualField 1 = "1" := by decide
  rw [printIndividual, List.map_replicate, h1, String.join_eq, List.map_replicate]
  exact congrArg String.mk (flatten_replicate_singleton '1' n)

/-! ### A run that finishes at once -/

theorem initPopulation_ones : initPopulation (fun _ => 1) = onePopulation := by
  have hbit : (((1 : Nat) &&& 1 : Nat) : Int) = 1 := by decide
  have hrow : (List.range 1000).map (fun _ => (((1 : Nat) &&& 1 : Nat) : Int)) = oneGenome := by
    rw [List.map_const', List.length_range, hbit, oneGenome]
  unfold initPopulation
  simp only []
  rw [hrow, List.map_const', List.length_range, onePopulation]

theorem fitness_oneGenome : fitness oneGenome = 1000 := by
  unfold fitness oneGenome
  rw [List.sum_replicate]
  rfl

theorem accumulate_oneGenome : accumulate oneGenome 0 = 1000 :=
  (accumulate_eq_fitness oneGenome isGenome_oneGenome).trans fitness_oneGenome

theorem evaluate_onePopulation_head : (evaluate onePopulation).head? = some oneGenome := by
  have hperm := evaluate_perm onePopulation
  cases hE : evaluate onePopulation with
  | nil =>
    have := hperm.length_eq
    rw [hE] at this
    exact absurd this (by simp [onePopulation])
  | cons g rest =>
    rw [hE] at hperm
    have hg : g ∈ onePopulation := hperm.subset (List.mem_cons_self _ _)
    rw [List.head?_cons, List.eq_of_mem_replicate hg]

theorem step_startOfOnes (rand : Nat → Nat) (draws : Nat → MutationDraw) :
    step rand draws startOfOnes = some finishedOfOnes := by
  have hhead : (evaluate (initPopulation (fun _ => 1))).head? = some oneGenome := by
    rw [initPopulation_ones]
    exact evaluate_onePopulation_head
  have hc : ¬ ((accumulate oneGenome 0 != 1000) = true) := by
    rw [accumulate_oneGenome]
    decide
  unfold step startOfOnes
  dsimp only
  rw [hhead, Option.bind_eq_bind, Option.some_bind, if_neg hc]
  rfl

theorem reachable_finishedOfOnes : Reachable finishedOfOnes :=
  Reachable.step (fun _ => 0) (fun _ => ⟨false, fun _ => 0⟩) startOfOnes finishedOfOnes
    (Reachable.init (fun _ => 1) zeroSelections isSelections_zeroSelections)
    (step_startOfOnes _ _)

/-! ### Entries of a crossed genome -/

theorem getElem?_take_append_drop {α : Type} (A B : List α) (c i : Nat)
    (hc : c ≤ A.length) :
    (A.take c ++ B.drop c)[i]? = if i < c then A[i]? else B[i]? := by
  have hlen : (A.take c).length = c := by rw [List.length_take]; omega
  by_cases hi : i < c
  · rw [if_pos hi, List.getElem?_append_left (by omega), List.getElem?_take_of_lt hi]
  · rw [if_neg hi, List.getElem?_append_right (by omega), List.getElem?_drop, hlen]
    congr 1
    omega

theorem take_zero_append_drop_zero {α : Type} (A B : List α) :
    A.take 0 ++ B.drop 0 = B := by
  simp

theorem crossover_at (rand : Nat → Nat) (selections : List Pairing)
    (h : ∀ p ∈ selections, p.1.length = L ∧ p.2.length = L)
    (k : Nat) (A B : Genome) (hk : selections[k]? = some (A, B)) :
    ∃ out, crossover rand selections = some out ∧ out.length = selections.length ∧
      out[k]? = some (A.take (rand k % L) ++ B.drop (rand k % L),
                      B.take (rand k % L) ++ A.drop (rand k % L)) := by
  obtain ⟨out, hout, hlen, hget⟩ := crossoverLoop_spec selections rand
    (List.replicate 1000 none) (List.length_replicate _ _) h
  exact ⟨out, hout, hlen, hget k A B hk⟩

/-! ### Indices touched by `std::copy` -/

theorem mem_stdCopyReads (first last i : Nat) (h : first ≤ last) :
    i ∈ stdCopyReads first last ↔ first ≤ i ∧ i < last := by
  unfold stdCopyReads
  rw [List.mem_range'_1]
  omega

theorem mem_stdCopyWrites (first last dfirst i : Nat) :
    i ∈ stdCopyWrites first last dfirst ↔ dfirst ≤ i ∧ i < dfirst + (last - first) := by
  unfold stdCopyWrites
  rw [List.mem_range'_1]

theorem stdCopy_frame {α : Type} (src dst out : List α) (first last dfirst : Nat)
    (h : stdCopy src first last dst dfirst = some out) (j : Nat)
    (hj : j ∉ stdCopyWrites first last dfirst) : out[j]? = dst[j]? := by
  unfold stdCopy at h
  split at h
  · next hb =>
    simp only [Option.some.injEq] at h
    subst h
    rw [mem_stdCopyWrites] at hj
    have hlen1 : (dst.take dfirst).length = dfirst := by rw [List.length_take]; omega
    have hlen2 : ((src.drop first).take (last - first)).length = last - first := by
      rw [List.length_take, List.length_drop]; omega
    by_cases hlt : j < dfirst
    · rw [List.append_assoc, List.getElem?_append_left (by omega),
        List.getElem?_take_of_lt hlt]
    · rw [List.getElem?_append_right (by rw [List.length_append]; omega),
        List.getElem?_drop, List.length_append, hlen1, hlen2]
      congr 1
      omega
  · cases h

theorem crossoverBody_fresh_temp_written (c : Nat) (B : Genome) (hB : B.length = L)
    (hc : c < L) (i : Nat) :
    (∃ v : Int, ((List.replicate 1000 (none : Option Int)).take c ++ (B.drop c).map some)[i]?
        = some (some v)) ↔ i ∈ crossoverTempWrites c := by
  have hL : L = 1000 := rfl
  unfold crossoverTempWrites
  rw [mem_stdCopyWrites, List.map_drop,
    getElem?_take_append_drop _ _ c i (by rw [List.length_replicate]; omega)]
  by_cases hi : i < c
  · rw [if_pos hi, List.getElem?_replicate_of_lt (by omega)]
    constructor
    · rintro ⟨v, hv⟩
      cases hv
    · intro h
      omega
  · rw [if_neg hi, List.getElem?_map]
    constructor
    · rintro ⟨v, hv⟩
      have hlt : i < B.length := by
        by_contra hcon
        rw [List.getElem?_eq_none (by omega)] at hv
        cases hv
      omega
    · intro h
      have hlt : i < B.length := by omega
      exact ⟨B[i], by rw [List.getElem?_eq_getElem hlt]; rfl⟩

/-! ### Selection followed by reassembly, and back -/

theorem reassemble_selection (population : Population) (selections : List Pairing)
    (hp : IsPopulation population) (hs : IsSelections selections) :
    ∃ sel, selection population selections = some sel ∧ IsSelections sel ∧
      reassembleLoop 0 population sel = some (100, population) := by
  obtain ⟨sel, hsel, hselOf, hget⟩ :=
    selection_selectionsOf IsShort IsShort population selections hp hs
  obtain ⟨out, hout, houtOf, hput⟩ :=
    reassemble_populationOf IsShort IsShort population sel hp hselOf
  refine ⟨sel, hsel, hselOf, ?_⟩
  have heq : out = population := by
    apply List.ext_getElem?
    intro j
    by_cases hj : j < 100
    · obtain ⟨a, b, ha, hb, hab⟩ := hget (j / 2) (by omega)
      obtain ⟨a', b', hab', ha', hb'⟩ := hput (j / 2) (by omega)
      rw [hab] at hab'
      cases hab'
      rcases Nat.mod_two_eq_zero_or_one j with hpar | hpar
      · have e : 2 * (j / 2) = j := by omega
        rw [e] at ha ha'
        rw [ha, ha']
      · have e : 2 * (j / 2) + 1 = j := by omega
        rw [e] at hb hb'
        rw [hb, hb']
    · have h1 : out.length = 100 := houtOf.1
      have h2 : population.length = 100 := hp.1
      rw [List.getElem?_eq_none (by omega), List.getElem?_eq_none (by omega)]
  rw [hout, heq]

theorem selection_reassemble (population : Population) (selections stale : List Pairing)
    (hp : IsPopulation population) (hs : IsSelections selections) (hstale : IsSelections stale) :
    ∃ flat, reassembleLoop 0 population selections = some (100, flat) ∧ IsPopulation flat ∧
      selection flat stale = some selections := by
  obtain ⟨flat, hflat, hflatOf, hput⟩ :=
    reassemble_populationOf IsShort IsShort population selections hp hs
  obtain ⟨sel, hsel, hselOf, hget⟩ :=
    selection_selectionsOf IsShort IsShort flat stale hflatOf hstale
  refine ⟨flat, hflat, hflatOf, ?_⟩
  have heq : sel = selections := by
    apply List.ext_getElem?
    intro k
    by_cases hk : k < 50
    · obtain ⟨a, b, hab, ha, hb⟩ := hput k hk
      obtain ⟨a', b', ha', hb', hab'⟩ := hget k hk
      rw [ha] at ha'
      rw [hb] at hb'
      cases ha'
      cases hb'
      rw [hab, hab']
    · have h1 : sel.length = 50 := hselOf.1
      have h2 : selections.length = 50 := hs.1
      rw [List.getElem?_eq_none (by omega), List.getElem?_eq_none (by omega)]
  rw [hsel, heq]

/-! ### The iterator of the reassembly loop -/

theorem reassembleLoop_sized (m : Nat) (selections : List Pairing) (individual : Nat)
    (population out : Population) (final : Nat)
    (hind : individual + 2 * selections.length ≤ population.length)
    (hpop : ∀ g ∈ population, g.length = m)
    (hsel : ∀ p ∈ selections, p.1.length = m ∧ p.2.length = m)
    (hout : reassembleLoop individual population selections = some (final, out)) :
    out.length = population.length ∧ ∀ g ∈ out, g.length = m := by
  obtain ⟨out', hout', hlen, hget, hframe⟩ :=
    reassembleLoop_spec m selections individual population hind hpop hsel
  rw [hout] at hout'
  cases hout'
  refine ⟨hlen, ?_⟩
  intro g hg
  obtain ⟨j, hj⟩ := List.mem_iff_getElem?.1 hg
  by_cases hin : individual ≤ j ∧ j < individual + 2 * selections.length
  · obtain ⟨a, b, hab, ha, hb⟩ := hget ((j - individual) / 2) (by omega)
    have hmem := hsel (a, b) (List.getElem?_mem hab)
    rcases Nat.mod_two_eq_zero_or_one (j - individual) with hpar | hpar
    · have e : individual + 2 * ((j - individual) / 2) = j := by omega
      rw [e, hj] at ha
      cases ha
      exact hmem.1
    · have e : individual + 2 * ((j - individual) / 2) + 1 = j := by omega
      rw [e, hj] at hb
      cases hb
      exact hmem.2
  · rw [hframe j (by omega)] at hj
    exact hpop g (List.getElem?_mem hj)

theorem reassembleTrace_spec (m : Nat) (selections : List Pairing) :
    ∀ (individual : Nat) (population : Population),
      individual + 2 * selections.length ≤ population.length →
      (∀ g ∈ population, g.length = m) →
      (∀ p ∈ selections, p.1.length = m ∧ p.2.length = m) →
      reassembleTrace individual population selections
        = (List.range selections.length).map
            (fun k => (individual + 2 * k, individual + 2 * k + 1, true)) := by
  induction selections with
  | nil => intro _ _ _ _ _; rfl
  | cons sel rest ih =>
    intro individual population hind hpop hsel
    simp only [List.length_cons] at hind
    have hsel1 : ∀ p ∈ [sel], p.1.length = m ∧ p.2.length = m := by
      intro p hp
      rw [List.mem_singleton] at hp
      subst hp
      exact hsel p (List.mem_cons_self _ _)
    obtain ⟨out, hout, _⟩ := reassembleLoop_spec m [sel] individual population
      (by simp only [List.length_singleton]; omega) hpop hsel1
    obtain ⟨hlen, hsized⟩ := reassembleLoop_sized m [sel] individual population out _
      (by simp only [List.length_singleton]; omega) hpop hsel1 hout
    have hguard : (individual + 1 != population.length) = true := by
      simp only [bne_iff_ne, ne_eq]; omega
    have hrest := ih (individual + 2 * [sel].length) out
      (by simp only [List.length_singleton]; omega) hsized
      (fun p hp => hsel p (List.mem_cons_of_mem _ hp))
    rw [reassembleTrace, hout, hguard]
    simp only []
    rw [hrest]
    simp only [List.length_cons, List.length_nil]
    rw [List.range_succ_eq_map, List.map_cons, List.map_map]
    refine congrArg₂ List.cons rfl ?_
    apply List.map_congr_left
    intro k _
    simp only [Function.comp, Nat.succ_eq_add_one, Prod.mk.injEq, and_true]
    omega

/-! ### Total fitness -/

theorem eq_flattenPairs_of_getElem? (sel : List Pairing) :
    ∀ population : Population, population.length = 2 * sel.length →
      (∀ k, k < sel.length → ∃ a b, population[2 * k]? = some a ∧
        population[2 * k + 1]? = some b ∧ sel[k]? = some (a, b)) →
      population = flattenPairs sel := by
  induction sel with
  | nil =>
    intro population hlen _
    exact List.length_eq_zero.1 (by simpa using hlen)
  | cons p rest ih =>
    intro population hlen hget
    simp only [List.length_cons] at hlen
    match population, hlen with
    | x :: y :: tail, hlen =>
      obtain ⟨a, b, ha, hb, hab⟩ := hget 0 (by simp)
      simp only [Nat.mul_zero, List.getElem?_cons_zero, Option.some.injEq, Nat.zero_add,
        List.getElem?_cons_succ] at ha hb hab
      subst ha hb hab
      have htail : tail = flattenPairs rest := by
        apply ih tail (by simp only [List.length_cons] at hlen; omega)
        intro k hk
        obtain ⟨a, b, ha, hb, hab⟩ := hget (k + 1) (by simpa using hk)
        have e1 : 2 * (k + 1) = (2 * k + 1) + 1 := by ring
        have e2 : 2 * (k + 1) + 1 = (2 * k + 1 + 1) + 1 := by ring
        rw [e1, List.getElem?_cons_succ, List.getElem?_cons_succ] at ha
        rw [e2, List.getElem?_cons_succ, List.getElem?_cons_succ] at hb
        rw [List.getElem?_cons_succ] at hab
        exact ⟨a, b, ha, hb, hab⟩
      rw [htail]
      rfl

theorem totalFitness_flattenPairs (sel : List Pairing) :
    totalFitness (flattenPairs sel) = totalFitnessOfPairs sel := by
  induction sel with
  | nil => rfl
  | cons p rest ih =>
    unfold totalFitness totalFitnessOfPairs at ih ⊢
    simp only [flattenPairs, List.map_cons, List.sum_cons, ih]
    ring

theorem totalFitness_perm (p q : Population) (h : p.Perm q) :
    totalFitness p = totalFitness q :=
  (h.map fitness).sum_eq

theorem totalFitness_evaluate (population : Population) :
    totalFitness (evaluate population) = totalFitness population :=
  totalFitness_perm _ _ (evaluate_perm population)

theorem totalFitness_mutation (population : Population) :
    ∀ draws : Nat → MutationDraw,
      totalFitness (mutation draws population) = totalFitness population := by
  induction population with
  | nil => intro _; rfl
  | cons g rest ih =>
    intro draws
    have hrest := ih (fun i => draws (i + 1))
    have hhead : fitness (if (draws 0).selected then stdShuffle (draws 0).index g else g)
        = fitness g := by
      split
      · exact (stdShuffle_perm _ g).sum_eq
      · rfl
    unfold totalFitness at hrest ⊢
    simp only [mutation, List.map_cons, List.sum_cons, hrest, hhead]

theorem fitness_crossed (A B : Genome) (c : Nat) :
    fitness (A.take c ++ B.drop c) + fitness (B.take c ++ A.drop c) = fitness A + fitness B := by
  have hA : (A.take c).sum + (A.drop c).sum = A.sum := by
    rw [← List.sum_append, List.take_append_drop]
  have hB : (B.take c).sum + (B.drop c).sum = B.sum := by
    rw [← List.sum_append, List.take_append_drop]
  unfold fitness
  rw [List.sum_append, List.sum_append]
  omega

theorem sum_map_eq_of_getElem? {α : Type} (f : α → Int) (l1 : List α) :
    ∀ l2 : List α, l2.length = l1.length →
      (∀ (k : Nat) (x : α), l1[k]? = some x → ∃ y, l2[k]? = some y ∧ f y = f x) →
      (l2.map f).sum = (l1.map f).sum := by
  induction l1 with
  | nil =>
    intro l2 hlen _
    rw [List.length_eq_zero.1 hlen]
  | cons x xs ih =>
    intro l2 hlen hget
    match l2, hlen with
    | y :: ys, hlen =>
      obtain ⟨y', hy', hf⟩ := hget 0 x (List.getElem?_cons_zero)
      simp only [List.getElem?_cons_zero, Option.some.injEq] at hy'
      subst hy'
      have := ih ys (by simpa using hlen)
        (fun k z hz => by simpa using hget (k + 1) z (by simpa using hz))
      simp only [List.map_cons, List.sum_cons, this, hf]

theorem selection_flatten (P Q : Int → Prop) (population : Population)
    (selections : List Pairing) (hp : PopulationOf P population)
    (hs : SelectionsOf Q selections) :
    ∃ out, selection population selections = some out ∧ SelectionsOf P out ∧
      population = flattenPairs out := by
  obtain ⟨out, hout, hsel, hget⟩ := selection_selectionsOf P Q population selections hp hs
  refine ⟨out, hout, hsel, ?_⟩
  apply eq_flattenPairs_of_getElem? out population (by rw [hp.1, hsel.1])
  intro k hk
  exact hget k (by rw [hsel.1] at hk; exact hk)

theorem reassemble_flatten (P Q : Int → Prop) (population : Population)
    (selections : List Pairing) (hp : PopulationOf Q population)
    (hs : SelectionsOf P selections) :
    ∃ flat, reassemble population selections = some flat ∧ PopulationOf P flat ∧
      flat = flattenPairs selections := by
  obtain ⟨flat, hflat, hflatOf, hget⟩ :=
    reassemble_populationOf P Q population selections hp hs
  refine ⟨flat, by simp [reassemble, hflat], hflatOf, ?_⟩
  apply eq_flattenPairs_of_getElem? selections flat (by rw [hflatOf.1, hs.1])
  intro k hk
  obtain ⟨a, b, hab, ha, hb⟩ := hget k (by rw [hs.1] at hk; exact hk)
  exact ⟨a, b, ha, hb, hab⟩

theorem crossover_total (P : Int → Prop) (rand : Nat → Nat) (selections : List Pairing)
    (hs : SelectionsOf P selections) :
    ∃ out, crossover rand selections = some out ∧ SelectionsOf P out ∧
      totalFitnessOfPairs out = totalFitnessOfPairs selections := by
  obtain ⟨out, hout, houtOf⟩ := crossover_selectionsOf P rand selections hs
  obtain ⟨out', hout', hlen, hget⟩ := crossoverLoop_spec selections rand
    (List.replicate 1000 none) (List.length_replicate _ _)
    (fun p hq => ⟨(hs.2 p hq).1.1, (hs.2 p hq).2.1⟩)
  have heq : out' = out := by
    have h1 : crossover rand selections = some out' := hout'
    rw [hout] at h1
    cases h1
    rfl
  subst heq
  refine ⟨out', hout, houtOf, ?_⟩
  unfold totalFitnessOfPairs
  apply sum_map_eq_of_getElem? (fun p : Pairing => fitness p.1 + fitness p.2) selections out' hlen
  intro k p hp
  obtain ⟨A, B⟩ := p
  exact ⟨_, hget k A B hp, fitness_crossed A B (rand k % L)⟩

theorem generation_spec (P Q : Int → Prop) (rand : Nat → Nat) (draws : Nat → MutationDraw)
    (population : Population) (selections : List Pairing)
    (hp : PopulationOf P population) (hs : SelectionsOf Q selections) :
    ∃ sel crossed flat, selection population selections = some sel ∧
      population = flattenPairs sel ∧ SelectionsOf P sel ∧
      crossover rand sel = some crossed ∧ SelectionsOf P crossed ∧
      reassemble population crossed = some flat ∧ flat = flattenPairs crossed ∧
      PopulationOf P flat ∧ totalFitness flat = totalFitness population ∧
      generation rand draws population selections
        = some (evaluate (mutation draws flat), crossed) := by
  obtain ⟨sel, hsel, hselOf, hflat⟩ := selection_flatten P Q population selections hp hs
  obtain ⟨crossed, hcr, hcrOf, htot⟩ := crossover_total P rand sel hselOf
  obtain ⟨flat, hre, hflatOf, hflat2⟩ := reassemble_flatten P P population crossed hp hcrOf
  refine ⟨sel, crossed, flat, hsel, hflat, hselOf, hcr, hcrOf, hre, hflat2, hflatOf, ?_, ?_⟩
  · rw [hflat2, totalFitness_flattenPairs, htot, ← totalFitness_flattenPairs, ← hflat]
  · simp only [generation, hsel, hcr, hre, Option.bind_eq_bind, Option.some_bind]

/-! ### Moves of `main` keep the total fitness -/

theorem fitness_le_totalFitness (population : Population)
    (hnn : ∀ g ∈ population, 0 ≤ fitness g) (g : Genome) (hg : g ∈ population) :
    fitness g ≤ totalFitness population := by
  induction population with
  | nil => cases hg
  | cons x xs ih =>
    have hxs : 0 ≤ totalFitness xs := by
      unfold totalFitness
      apply List.sum_nonneg
      intro v hv
      obtain ⟨y, hy, rfl⟩ := List.mem_map.1 hv
      exact hnn y (List.mem_cons_of_mem _ hy)
    have hx : 0 ≤ fitness x := hnn x (List.mem_cons_self _ _)
    have hcons : totalFitness (x :: xs) = fitness x + totalFitness xs := by
      unfold totalFitness
      rw [List.map_cons, List.sum_cons]
    rcases List.mem_cons.1 hg with rfl | hg
    · omega
    · have := ih (fun y hy => hnn y (List.mem_cons_of_mem _ hy)) hg
      omega

theorem step_invariant (total : Int) (rand : Nat → Nat) (draws : Nat → MutationDraw)
    (s t : State) (hinv : StateInvariant total s) (ht : step rand draws s = some t) :
    StateInvariant total t := by
  obtain ⟨stage, population, selections, output⟩ := s
  obtain ⟨hpop, hsel, htot, hmid⟩ := hinv
  simp only at hpop hsel htot hmid
  cases stage with
  | loopTest =>
    simp only [step, Option.bind_eq_bind] at ht
    cases hh : population.head? with
    | none => simp [hh] at ht
    | some best =>
      simp only [hh, Option.some_bind] at ht
      by_cases hc : (accumulate best 0 != 1000) = true
      · rw [if_pos hc] at ht
        obtain ⟨out, hout, houtOf, hflat⟩ :=
          selection_flatten (fun x => x = 0 ∨ x = 1) IsShort population selections hpop hsel
        simp only [hout, Option.some_bind, Option.some.injEq] at ht
        subst ht
        refine ⟨hpop, selectionsOf_mono _ _ isShort_of_bit _ houtOf, htot, fun _ => ⟨houtOf, ?_⟩⟩
        simp only []
        rw [← totalFitness_flattenPairs, ← hflat]
        exact htot
      · rw [if_neg hc] at ht
        simp only [Option.some.injEq] at ht
        subst ht
        exact ⟨hpop, hsel, htot, fun hst => by rcases hst with hst | hst <;> cases hst⟩
  | selected =>
    simp only [step, Option.bind_eq_bind] at ht
    obtain ⟨out, hout, houtOf, htot'⟩ :=
      crossover_total (fun x => x = 0 ∨ x = 1) rand selections (hmid (Or.inl rfl)).1
    simp only [hout, Option.some_bind, Option.some.injEq] at ht
    subst ht
    exact ⟨hpop, selectionsOf_mono _ _ isShort_of_bit _ houtOf, htot,
      fun _ => ⟨houtOf, htot'.trans (hmid (Or.inl rfl)).2⟩⟩
  | crossed =>
    simp only [step, Option.bind_eq_bind] at ht
    obtain ⟨flat, hflat, hflatOf, heq⟩ :=
      reassemble_flatten (fun x => x = 0 ∨ x = 1) (fun x => x = 0 ∨ x = 1) population
        selections hpop (hmid (Or.inr rfl)).1
    simp only [hflat, Option.some_bind, Option.some.injEq] at ht
    subst ht
    refine ⟨hflatOf, hsel, ?_, fun hst => by rcases hst with hst | hst <;> cases hst⟩
    simp only []
    rw [heq, totalFitness_flattenPairs]
    exact (hmid (Or.inr rfl)).2
  | reassembled =>
    simp only [step, Option.some.injEq] at ht
    subst ht
    exact ⟨mutation_populationOf _ draws population hpop, hsel,
      (totalFitness_mutation population draws).trans htot,
      fun hst => by rcases hst with hst | hst <;> cases hst⟩
  | mutated =>
    simp only [step, Option.some.injEq] at ht
    subst ht
    exact ⟨evaluate_populationOf _ population hpop, hsel,
      (totalFitness_evaluate population).trans htot,
      fun hst => by rcases hst with hst | hst <;> cases hst⟩
  | finished => simp [step] at ht

theorem step_finished (rand : Nat → Nat) (draws : Nat → MutationDraw) (s t : State)
    (ht : step rand draws s = some t) (hfin : t.stage = .finished) :
    s.stage = .loopTest ∧ t.population = s.population ∧
      ∃ best, s.population.head? = some best ∧ accumulate best 0 = 1000 := by
  obtain ⟨stage, population, selections, output⟩ := s
  cases stage with
  | loopTest =>
    simp only [step, Option.bind_eq_bind] at ht
    cases hh : population.head? with
    | none => simp [hh] at ht
    | some best =>
      simp only [hh, Option.some_bind] at ht
      by_cases hc : (accumulate best 0 != 1000) = true
      · rw [if_pos hc] at ht
        cases hsel : selection population selections with
        | none => simp [hsel] at ht
        | some sel =>
          simp only [hsel, Option.some_bind, Option.some.injEq] at ht
          subst ht
          cases hfin
      · rw [if_neg hc] at ht
        simp only [Option.some.injEq] at ht
        subst ht
        exact ⟨rfl, rfl, best, rfl, by simpa using hc⟩
  | selected =>
    simp only [step, Option.bind_eq_bind] at ht
    cases hsel : crossover rand selections with
    | none => simp [hsel] at ht
    | some sel =>
      simp only [hsel, Option.some_bind, Option.some.injEq] at ht
      subst ht
      cases hfin
  | crossed =>
    simp only [step, Option.bind_eq_bind] at ht
    cases hre : reassemble population selections with
    | none => simp [hre] at ht
    | some pop =>
      simp only [hre, Option.some_bind, Option.some.injEq] at ht
      subst ht
      cases hfin
  | reassembled =>
    simp only [step, Option.some.injEq] at ht
    subst ht
    cases hfin
  | mutated =>
    simp only [step, Option.some.injEq] at ht
    subst ht
    cases hfin
  | finished => simp [step] at ht

theorem run_invariant (total : Int) (s t : State) (hinv : StateInvariant total s)
    (hrun : Run s t) : StateInvariant total t := by
  induction hrun with
  | refl => exact hinv
  | step rand draws t u _ htu ih => exact step_invariant total rand draws t u ih htu

theorem finished_total (total : Int) (s : State) (hinv : StateInvariant total s)
    (best : Genome) (hhead : s.population.head? = some best)
    (hacc : accumulate best 0 = 1000) : (L : Int) ≤ total := by
  obtain ⟨hpop, _, htot, _⟩ := hinv
  have hmem : best ∈ s.population := List.mem_of_mem_head? hhead
  have hbest := hpop.2 best hmem
  have hgen : IsGenome best := ⟨hbest.1, fun x hx => isShort_of_bit x (hbest.2 x hx)⟩
  have hfit : fitness best = 1000 := by rw [← accumulate_eq_fitness best hgen]; exact hacc
  have hle := fitness_le_totalFitness s.population
    (fun g hg => (binary_fitness_bounds g (hpop.2 g hg)).1) best hmem
  rw [htot, hfit] at hle
  exact hle

theorem run_not_finished (total : Int) (s t : State) (hinv : StateInvariant total s)
    (hlt : total < (L : Int)) (hs : s.stage ≠ .finished) (hrun : Run s t) :
    t.stage ≠ .finished := by
  cases hrun with
  | refl => exact hs
  | step rand draws u _ hsu hut =>
    intro hfin
    obtain ⟨_, _, best, hhead, hacc⟩ := step_finished rand draws u t hut hfin
    have := finished_total total u (run_invariant total s u hinv hsu) best hhead hacc
    omega

theorem binary_fitness_eq_count (g : Genome) (h : IsBinary g) :
    fitness g = ((g.count 1 : Nat) : Int) := by
  induction g with
  | nil => rfl
  | cons x xs ih =>
    have hx := h x (List.mem_cons_self _ _)
    have hxs := ih (fun y hy => h y (List.mem_cons_of_mem _ hy))
    unfold fitness at hxs ⊢
    rcases hx with rfl | rfl
    · rw [List.sum_cons, hxs, List.count_cons_of_ne (by decide)]
      simp
    · rw [List.sum_cons, hxs, List.count_cons_self]
      push_cast
      ring

/-! ### A generation that loses its best individual -/

theorem mutation_noMutation (population : Population) :
    mutation noMutation population = population := by
  have hshift : (fun i => noMutation (i + 1)) = noMutation := rfl
  induction population with
  | nil => rfl
  | cons g rest ih =>
    rw [mutation, hshift, ih]
    rfl

theorem mem_flattenPairs (sel : List Pairing) (g : Genome) :
    g ∈ flattenPairs sel ↔ ∃ p ∈ sel, g = p.1 ∨ g = p.2 := by
  induction sel with
  | nil => simp [flattenPairs]
  | cons q rest ih =>
    simp only [flattenPairs, List.mem_cons, ih]
    constructor
    · rintro (h | h | ⟨p, hp, h⟩)
      · exact ⟨q, Or.inl rfl, Or.inl h⟩
      · exact ⟨q, Or.inl rfl, Or.inr h⟩
      · exact ⟨p, Or.inr hp, h⟩
    · rintro ⟨p, hp | hp, h⟩
      · subst hp
        rcases h with h | h
        · exact Or.inl h
        · exact Or.inr (Or.inl h)
      · exact Or.inr (Or.inr ⟨p, hp, h⟩)

theorem fitness_zeroGenome : fitness zeroGenome = 0 := by
  unfold fitness zeroGenome
  rw [List.sum_replicate]
  simp

theorem fitness_twoOnesGenome : fitness twoOnesGenome = 2 := by
  unfold fitness twoOnesGenome
  rw [List.sum_cons, List.sum_cons, List.sum_replicate]
  simp

theorem isGenome_twoOnesGenome : IsGenome twoOnesGenome := by
  refine ⟨?_, ?_⟩
  · unfold twoOnesGenome
    rw [List.length_cons, List.length_cons, List.length_replicate]
  · intro x hx
    unfold twoOnesGenome at hx
    rcases List.mem_cons.1 hx with rfl | hx
    · decide
    · rcases List.mem_cons.1 hx with rfl | hx
      · decide
      · rw [List.eq_of_mem_replicate hx]
        decide

theorem isPopulation_elitePopulation : IsPopulation elitePopulation := by
  refine ⟨?_, ?_⟩
  · unfold elitePopulation
    rw [List.length_cons, List.length_replicate]
  · intro g hg
    unfold elitePopulation at hg
    rcases List.mem_cons.1 hg with rfl | hg
    · exact isGenome_twoOnesGenome
    · rw [List.eq_of_mem_replicate hg]
      exact isGenome_zeroGenome

theorem elitePopulation_sorted :
    elitePopulation.Pairwise (fun a b => fitness b ≤ fitness a) := by
  unfold elitePopulation
  rw [List.pairwise_cons]
  constructor
  · intro g hg
    rw [List.eq_of_mem_replicate hg, fitness_zeroGenome, fitness_twoOnesGenome]
    decide
  · rw [List.pairwise_replicate]
    exact Or.inr (le_refl _)

theorem fitness_cross_elite_first :
    fitness (twoOnesGenome.take 1 ++ zeroGenome.drop 1) = 1 := by
  have h1 : twoOnesGenome.take 1 = [1] := rfl
  unfold fitness
  rw [List.sum_append, h1, zeroGenome, List.drop_replicate, List.sum_replicate]
  simp

theorem fitness_cross_elite_second :
    fitness (zeroGenome.take 1 ++ twoOnesGenome.drop 1) = 1 := by
  have h1 : twoOnesGenome.drop 1 = 1 :: List.replicate 998 0 := rfl
  unfold fitness
  rw [List.sum_append, h1, zeroGenome, List.take_replicate, List.sum_replicate, List.sum_cons,
    List.sum_replicate]
  simp

theorem elite_pairs (sel : List Pairing) (h : elitePopulation = flattenPairs sel) :
    ∀ p ∈ sel, (p = (twoOnesGenome, zeroGenome)) ∨ (p = (zeroGenome, zeroGenome)) := by
  cases sel with
  | nil =>
    unfold elitePopulation at h
    cases h
  | cons q rest =>
    have h99 : List.replicate 99 zeroGenome = zeroGenome :: List.replicate 98 zeroGenome :=
      List.replicate_succ zeroGenome 98
    unfold elitePopulation at h
    rw [h99, flattenPairs] at h
    have h1 : twoOnesGenome = q.1 := (List.cons.inj h).1
    have h2 : zeroGenome = q.2 := (List.cons.inj (List.cons.inj h).2).1
    have h3 : List.replicate 98 zeroGenome = flattenPairs rest :=
      (List.cons.inj (List.cons.inj h).2).2
    intro p hp
    rcases List.mem_cons.1 hp with rfl | hp
    · left
      exact Prod.ext h1.symm h2.symm
    · right
      have hp1 : p.1 ∈ flattenPairs rest := (mem_flattenPairs rest p.1).2 ⟨p, hp, Or.inl rfl⟩
      have hp2 : p.2 ∈ flattenPairs rest := (mem_flattenPairs rest p.2).2 ⟨p, hp, Or.inr rfl⟩
      rw [← h3] at hp1 hp2
      exact Prod.ext (List.eq_of_mem_replicate hp1) (List.eq_of_mem_replicate hp2)

theorem elite_generation (selections : List Pairing) (hs : IsSelections selections) :
    ∃ out, generation (fun _ => 1) noMutation elitePopulation selections = some out ∧
      out.1.length = N ∧ ∀ g ∈ out.1, fitness g ≤ 1 := by
  obtain ⟨sel, crossed, flat, _, hflat, hselOf, hcr, _, _, hflat2, hflatOf, _, hgen⟩ :=
    generation_spec IsShort IsShort (fun _ => 1) noMutation elitePopulation selections
      isPopulation_elitePopulation hs
  refine ⟨_, hgen, ?_, ?_⟩
  · simp only []
    rw [mutation_noMutation]
    exact (evaluate_populationOf IsShort flat hflatOf).1
  · intro g hg
    simp only [] at hg
    rw [mutation_noMutation] at hg
    have hg' : g ∈ flat := (evaluate_perm flat).subset hg
    rw [hflat2, mem_flattenPairs] at hg'
    obtain ⟨p, hp, hgp⟩ := hg'
    obtain ⟨k, hk⟩ := List.mem_iff_getElem?.1 hp
    obtain ⟨out, hout, hlen, hget⟩ := crossoverLoop_spec sel (fun _ => 1)
      (List.replicate 1000 none) (List.length_replicate _ _)
      (fun q hq => ⟨(hselOf.2 q hq).1.1, (hselOf.2 q hq).2.1⟩)
    have heq : out = crossed := by
      have h1 : crossover (fun _ => 1) sel = some out := hout
      rw [hcr] at h1
      cases h1
      rfl
    subst heq
    have hklt : k < sel.length := by
      have := (List.getElem?_eq_some_iff.1 hk).1
      rwa [hlen] at this
    have hpk := hget k sel[k].1 sel[k].2 (List.getElem?_eq_getElem hklt)
    rw [hk] at hpk
    have hc : (fun _ : Nat => 1) k % L = 1 := rfl
    rw [hc] at hpk
    cases hpk
    rcases elite_pairs sel hflat sel[k] (List.getElem_mem hklt) with hpair | hpair
    · rw [hpair] at hgp
      rcases hgp with rfl | rfl
      · exact le_of_eq fitness_cross_elite_first
      · exact le_of_eq fitness_cross_elite_second
    · rw [hpair] at hgp
      simp only [List.take_append_drop] at hgp
      rcases hgp with rfl | rfl <;> rw [fitness_zeroGenome] <;> decide

/-! ### Every rearrangement is an outcome of `std::shuffle` -/

theorem swapAt_length {α : Type} (l : List α) (i j : Nat) : (swapAt l i j).length = l.length :=
  (swapAt_perm l i j).length_eq

theorem getElem?_swapAt {α : Type} (l : List α) (i j m : Nat) (hi : i < l.length)
    (hj : j < l.length) :
    (swapAt l i j)[m]? = if m = j then l[i]? else if m = i then l[j]? else l[m]? := by
  unfold swapAt
  rw [List.getElem?_eq_getElem hi, List.getElem?_eq_getElem hj]
  simp only []
  rw [List.getElem?_set, List.getElem?_set]
  by_cases hmj : m = j
  · subst hmj
    simp [hi, hj]
  · by_cases hmi : m = i
    · subst hmi
      simp [hmj, Ne.symm hmj, hi, hj]
    · simp [hmj, hmi, Ne.symm hmj, Ne.symm hmi]

theorem swapAt_swapAt {α : Type} (l : List α) (i j : Nat) (hi : i < l.length)
    (hj : j < l.length) : swapAt (swapAt l i j) i j = l := by
  apply List.ext_getElem?
  intro m
  rw [getElem?_swapAt _ i j m (by rw [swapAt_length]; exact hi)
    (by rw [swapAt_length]; exact hj),
    getElem?_swapAt l i j i hi hj, getElem?_swapAt l i j j hi hj,
    getElem?_swapAt l i j m hi hj]
  by_cases hmj : m = j
  · subst hmj
    by_cases hij : i = m
    · subst hij
      simp
    · simp [hij]
  · by_cases hmi : m = i
    · subst hmi
      simp [hmj]
    · simp [hmj, hmi]

theorem foldl_swapAt_reach (k : Nat) :
    ∀ g t : Genome, k + 1 ≤ g.length → t.length = g.length →
      (t.take (k + 1)).Perm (g.take (k + 1)) → t.drop (k + 1) = g.drop (k + 1) →
      ∃ index : Nat → Nat,
        (List.range' 1 k).foldl (fun acc i => swapAt acc i (index i % (i + 1))) g = t := by
  induction k with
  | zero =>
    intro g t hg ht hperm hdrop
    refine ⟨fun _ => 0, ?_⟩
    match g, t, hg, ht, hperm, hdrop with
    | a :: g', b :: t', _, _, hperm, hdrop =>
      simp only [Nat.zero_add, List.take_succ_cons, List.take_zero, List.drop_succ_cons,
        List.drop_zero] at hperm hdrop
      have hab : b = a := List.singleton_perm_singleton.1 hperm
      simp only [List.range'_zero, List.foldl_nil]
      rw [hab, hdrop]
  | succ k ih =>
    intro g t hg ht hperm hdrop
    have hk1 : k + 1 < g.length := by omega
    have hk1t : k + 1 < t.length := by omega
    -- the entry that has to be at position `k + 1` before the last exchange
    have hxg : g[k + 1] ∈ g.take (k + 1 + 1) :=
      List.getElem?_mem (by
        rw [List.getElem?_take_of_lt (Nat.lt_succ_self _)]
        exact List.getElem?_eq_getElem hk1)
    obtain ⟨j, hj⟩ := List.mem_iff_getElem?.1 (hperm.symm.subset hxg)
    have hjlt : j < k + 1 + 1 := by
      have := (List.getElem?_eq_some_iff.1 hj).1
      rw [List.length_take] at this
      omega
    rw [List.getElem?_take_of_lt hjlt] at hj
    have hjt : j < t.length := by omega
    have hu : ∀ m, (swapAt t (k + 1) j)[m]?
        = if m = j then t[k + 1]? else if m = k + 1 then t[j]? else t[m]? :=
      fun m => getElem?_swapAt t (k + 1) j m hk1t hjt
    have hulen : (swapAt t (k + 1) j).length = g.length := (swapAt_length _ _ _).trans ht
    have hux : (swapAt t (k + 1) j)[k + 1]? = some g[k + 1] := by
      rw [hu]
      by_cases hjk : k + 1 = j
      · rw [if_pos hjk]
        rw [← hjk] at hj
        exact hj
      · rw [if_neg hjk, if_pos rfl]
        exact hj
    have hudrop2 : (swapAt t (k + 1) j).drop (k + 1 + 1) = t.drop (k + 1 + 1) := by
      apply List.ext_getElem?
      intro m
      rw [List.getElem?_drop, List.getElem?_drop, hu, if_neg (by omega), if_neg (by omega)]
    have hudrop : (swapAt t (k + 1) j).drop (k + 1) = g.drop (k + 1) := by
      apply List.ext_getElem?
      intro m
      rw [List.getElem?_drop, List.getElem?_drop]
      cases m with
      | zero =>
        rw [Nat.add_zero, hux]
        exact (List.getElem?_eq_getElem hk1).symm
      | succ m =>
        have e : k + 1 + (m + 1) = k + 1 + 1 + m := by omega
        rw [e, ← List.getElem?_drop, hudrop2, hdrop, List.getElem?_drop]
    have hutake2 : ((swapAt t (k + 1) j).take (k + 1 + 1)).Perm (g.take (k + 1 + 1)) := by
      have e0 : (swapAt t (k + 1) j).take (k + 1 + 1) ++ t.drop (k + 1 + 1)
          = swapAt t (k + 1) j := by
        rw [← hudrop2]
        exact List.take_append_drop _ _
      have h1 : ((swapAt t (k + 1) j).take (k + 1 + 1) ++ t.drop (k + 1 + 1)).Perm
          (t.take (k + 1 + 1) ++ t.drop (k + 1 + 1)) := by
        rw [e0, List.take_append_drop]
        exact swapAt_perm t (k + 1) j
      exact ((List.perm_append_right_iff _).1 h1).trans hperm
    have hutake : ((swapAt t (k + 1) j).take (k + 1)).Perm (g.take (k + 1)) := by
      have e1 : (swapAt t (k + 1) j).take (k + 1 + 1)
          = (swapAt t (k + 1) j).take (k + 1) ++ [g[k + 1]] := by
        rw [List.take_succ, hux]
        rfl
      have e2 : g.take (k + 1 + 1) = g.take (k + 1) ++ [g[k + 1]] := by
        rw [List.take_succ, List.getElem?_eq_getElem hk1]
        rfl
      rw [e1, e2] at hutake2
      exact (List.perm_append_right_iff _).1 hutake2
    obtain ⟨index0, hindex0⟩ := ih g (swapAt t (k + 1) j) (by omega) hulen hutake hudrop
    refine ⟨fun i => if i = k + 1 then j else index0 i, ?_⟩
    rw [List.range'_1_concat, List.foldl_append]
    have hsame : (List.range' 1 k).foldl
        (fun acc i => swapAt acc i ((if i = k + 1 then j else index0 i) % (i + 1))) g
        = swapAt t (k + 1) j := by
      rw [← hindex0]
      apply List.foldl_ext
      intro acc i hi
      have hik : i ≠ k + 1 := by
        have := (List.mem_range'_1.1 hi).2
        omega
      rw [if_neg hik]
    rw [hsame]
    simp only [List.foldl_cons, List.foldl_nil]
    have e3 : 1 + k = k + 1 := Nat.add_comm 1 k
    rw [e3, if_pos rfl, Nat.mod_eq_of_lt hjlt]
    exact swapAt_swapAt t (k + 1) j hk1t hjt

theorem stdShuffle_reach (g t : Genome) (h : t.Perm g) :
    ∃ index : Nat → Nat, stdShuffle index g = t := by
  cases g with
  | nil =>
    have : t = [] := List.perm_nil.1 h
    exact ⟨fun _ => 0, by rw [this]; rfl⟩
  | cons a g' =>
    have hlen : t.length = (a :: g').length := h.length_eq
    obtain ⟨index, hindex⟩ := foldl_swapAt_reach g'.length (a :: g') t
      (by simp) hlen
      (by
        rw [List.take_of_length_le (by rw [hlen]; simp),
          List.take_of_length_le (by simp)]
        exact h)
      (by
        rw [List.drop_eq_nil_of_le (by rw [hlen]; simp),
          List.drop_eq_nil_of_le (by simp)])
    refine ⟨index, ?_⟩
    unfold stdShuffle
    simp only [List.length_cons, Nat.add_sub_cancel]
    exact hindex

/-! ### Directing `mutation` and `evaluate` -/

theorem mutation_reach (population targets : Population)
    (h : List.Forall₂ (fun t g : Genome => t.Perm g) targets population) :
    ∃ draws : Nat → MutationDraw, mutation draws population = targets := by
  induction h with
  | nil => exact ⟨noMutation, rfl⟩
  | @cons t g ts gs ht _ ih =>
    obtain ⟨draws0, hdraws0⟩ := ih
    obtain ⟨index, hindex⟩ := stdShuffle_reach g t ht
    refine ⟨fun i => Nat.casesOn i { selected := true, index := index } (fun k => draws0 k), ?_⟩
    have hshift : (fun i => (fun i : Nat => (Nat.casesOn i { selected := true, index := index }
        (fun k => draws0 k) : MutationDraw)) (i + 1)) = draws0 := rfl
    rw [mutation, hshift, hdraws0]
    show (if (true : Bool) = true then stdShuffle index g else g) :: ts = t :: ts
    rw [if_pos rfl, hindex]

theorem orderedInsert_map {α β : Type} (comp : β → β → Bool) (f : α → β) (x : α)
    (l : List α) :
    orderedInsert comp (f x) (l.map f)
      = (orderedInsert (fun a b => comp (f a) (f b)) x l).map f := by
  induction l with
  | nil => rfl
  | cons y ys ih =>
    simp only [List.map_cons, orderedInsert]
    split
    · rfl
    · rw [List.map_cons, ih]

theorem stdSort_map {α β : Type} (comp : β → β → Bool) (f : α → β) (l : List α) :
    stdSort comp (l.map f) = (stdSort (fun a b => comp (f a) (f b)) l).map f := by
  induction l with
  | nil => rfl
  | cons x xs ih =>
    simp only [List.map_cons, stdSort]
    rw [ih, orderedInsert_map]

theorem map_slot_range (population : Population) :
    (List.range population.length).map (slot population) = population := by
  apply List.ext_getElem?
  intro i
  rw [List.getElem?_map]
  by_cases hi : i < population.length
  · rw [List.getElem?_range hi, List.getElem?_eq_getElem hi]
    simp [slot, hi]
  · rw [List.getElem?_eq_none (by rw [List.length_range]; omega),
      List.getElem?_eq_none (by omega)]
    rfl

theorem evaluate_eq_slotOrder (population : Population) :
    evaluate population = (slotOrder population).map (slot population) := by
  unfold evaluate slotOrder
  rw [← stdSort_map]
  rw [map_slot_range]

theorem slotOrder_perm (population : Population) :
    (slotOrder population).Perm (List.range population.length) :=
  stdSort_perm _ _

theorem slotOrder_congr (p q : Population) (hlen : q.length = p.length)
    (hkey : ∀ i, accumulate (slot q i) 0 = accumulate (slot p i) 0) :
    slotOrder q = slotOrder p := by
  unfold slotOrder
  have hcomp : (fun i j => sortByFitness (slot q i) (slot q j))
      = (fun i j => sortByFitness (slot p i) (slot p j)) := by
    funext i j
    unfold sortByFitness
    rw [hkey i, hkey j]
  rw [hcomp, hlen]

theorem onesFirst_perm (g : Genome) (h : IsBinary g) : (onesFirst g).Perm g := by
  induction g with
  | nil => exact List.Perm.refl _
  | cons x xs ih =>
    have hxs := ih (fun y hy => h y (List.mem_cons_of_mem _ hy))
    unfold onesFirst at hxs ⊢
    rcases h x (List.mem_cons_self _ _) with rfl | rfl
    · rw [List.count_cons_of_ne (by decide), List.count_cons_self, List.replicate_succ]
      exact List.perm_middle.trans (List.Perm.cons 0 hxs)
    · rw [List.count_cons_self, List.count_cons_of_ne (by decide), List.replicate_succ,
        List.cons_append]
      exact List.Perm.cons 1 hxs

theorem onesLast_perm (g : Genome) (h : IsBinary g) : (onesLast g).Perm g :=
  List.perm_append_comm.trans (onesFirst_perm g h)

theorem accumulate_perm (g t : Genome) (hg : IsGenome g) (h : t.Perm g) :
    accumulate t 0 = accumulate g 0 := by
  have ht : IsGenome t := ⟨h.length_eq.trans hg.1, fun x hx => hg.2 x (h.subset hx)⟩
  rw [accumulate_eq_fitness t ht, accumulate_eq_fitness g hg]
  exact h.sum_eq

theorem slot_of_lt (population : Population) (i : Nat) (hi : i < population.length) :
    slot population i = population[i] := by
  unfold slot
  rw [List.getElem?_eq_getElem hi]
  rfl

theorem slot_of_le (population : Population) (i : Nat) (hi : population.length ≤ i) :
    slot population i = [] := by
  unfold slot
  rw [List.getElem?_eq_none hi]
  rfl

theorem slot_map_range (n : Nat) (F : Nat → Genome) (i : Nat) (hi : i < n) :
    slot ((List.range n).map F) i = F i := by
  unfold slot
  rw [List.getElem?_map, List.getElem?_range hi]
  rfl

theorem arrange (flat : Population) (hflat : PopulationOf (fun x => x = 0 ∨ x = 1) flat) :
    ∃ draws : Nat → MutationDraw, Arranged (evaluate (mutation draws flat)) ∧
      ∀ g ∈ flat, ∃ g1 ∈ evaluate (mutation draws flat), fitness g1 = fitness g := by
  have hn : flat.length = 100 := hflat.1
  have hbin : ∀ i, i < flat.length → IsBinary (slot flat i) := by
    intro i hi
    rw [slot_of_lt flat i hi]
    exact (hflat.2 _ (List.getElem_mem hi)).2
  have hgen : ∀ i, i < flat.length → IsGenome (slot flat i) := by
    intro i hi
    rw [slot_of_lt flat i hi]
    have := hflat.2 _ (List.getElem_mem hi)
    exact ⟨this.1, fun x hx => isShort_of_bit x (this.2 x hx)⟩
  have hperm := slotOrder_perm flat
  have hnodup : (slotOrder flat).Nodup := hperm.symm.nodup (List.nodup_range _)
  have hlen : (slotOrder flat).length = 100 := by
    rw [hperm.length_eq, List.length_range, hn]
  match hπ : slotOrder flat, hlen with
  | p0 :: p1 :: others, _ =>
    rw [hπ] at hnodup hperm
    have hp01 : p1 ≠ p0 := by
      intro heq
      have := (List.nodup_cons.1 hnodup).1
      exact this (by rw [heq]; exact List.mem_cons_self _ _)
    have hp0 : p0 < flat.length :=
      List.mem_range.1 (hperm.subset (List.mem_cons_self _ _))
    have hp1 : p1 < flat.length :=
      List.mem_range.1 (hperm.subset (List.mem_cons_of_mem _ (List.mem_cons_self _ _)))
    have hF : ∀ i, i < flat.length →
        (if i = p0 then onesFirst (slot flat i) else onesLast (slot flat i)).Perm
          (slot flat i) := by
      intro i hi
      split
      · exact onesFirst_perm _ (hbin i hi)
      · exact onesLast_perm _ (hbin i hi)
    have hall : List.Forall₂ (fun t g : Genome => t.Perm g)
        ((List.range flat.length).map
          (fun i => if i = p0 then onesFirst (slot flat i) else onesLast (slot flat i)))
        ((List.range flat.length).map (slot flat)) := by
      rw [List.forall₂_map_left_iff, List.forall₂_map_right_iff, List.forall₂_same]
      intro i hi
      exact hF i (List.mem_range.1 hi)
    rw [map_slot_range] at hall
    obtain ⟨draws, hdraws⟩ := mutation_reach flat _ hall
    have htlen : ((List.range flat.length).map
        (fun i => if i = p0 then onesFirst (slot flat i) else onesLast (slot flat i))).length
        = flat.length := by
      rw [List.length_map, List.length_range]
    have hkey : ∀ i, accumulate (slot ((List.range flat.length).map
        (fun i => if i = p0 then onesFirst (slot flat i) else onesLast (slot flat i))) i) 0
        = accumulate (slot flat i) 0 := by
      intro i
      by_cases hi : i < flat.length
      · rw [slot_map_range _ _ i hi]
        exact accumulate_perm _ _ (hgen i hi) (hF i hi)
      · rw [slot_of_le _ i (by rw [htlen]; omega), slot_of_le flat i (by omega)]
    have hord := slotOrder_congr flat _ htlen hkey
    refine ⟨draws, ?_, ?_⟩
    · rw [hdraws, evaluate_eq_slotOrder, hord, hπ, List.map_cons, List.map_cons,
        slot_map_range _ _ p0 hp0, slot_map_range _ _ p1 hp1, if_pos rfl, if_neg hp01]
      exact ⟨_, _, _, rfl⟩
    · intro g hg
      obtain ⟨i, hi, rfl⟩ := List.getElem_of_mem hg
      refine ⟨slot ((List.range flat.length).map
        (fun i => if i = p0 then onesFirst (slot flat i) else onesLast (slot flat i))) i, ?_, ?_⟩
      · rw [hdraws]
        apply (evaluate_perm _).symm.subset
        rw [slot_of_lt _ i (by rw [htlen]; exact hi)]
        exact List.getElem_mem _
      · rw [slot_map_range _ _ i hi, ← slot_of_lt flat i hi]
        exact (hF i hi).sum_eq

/-! ### Runs of `main` through whole generations -/

theorem run_trans (s t u : State) (hst : Run s t) (htu : Run t u) : Run s u := by
  induction htu with
  | refl => exact hst
  | step rand draws v w _ hvw ih => exact Run.step rand draws v w ih hvw

theorem run_generation (s : State) (rand : Nat → Nat) (draws : Nat → MutationDraw)
    (best : Genome) (sel crossed : List Pairing) (flat : Population)
    (hstage : s.stage = .loopTest) (hhead : s.population.head? = some best)
    (hne : accumulate best 0 ≠ 1000)
    (hsel : selection s.population s.selections = some sel)
    (hcr : crossover rand sel = some crossed)
    (hre : reassemble s.population crossed = some flat) :
    Run s { stage := .loopTest, population := evaluate (mutation draws flat),
            selections := crossed,
            output := s.output ++ ["Current Best: " ++ toString (accumulate best 0)] } := by
  obtain ⟨stage, population, selections, output⟩ := s
  simp only at hstage hhead hsel hre
  subst hstage
  have hc : (accumulate best 0 != 1000) = true := by simpa using hne
  have h1 : step rand draws
      { stage := .loopTest, population := population, selections := selections,
        output := output }
      = some { stage := .selected, population := population, selections := sel,
               output := output ++ ["Current Best: " ++ toString (accumulate best 0)] } := by
    simp only [step, hhead, Option.bind_eq_bind, Option.some_bind]
    rw [if_pos hc, hsel, Option.some_bind]
  have h2 : step rand draws
      { stage := .selected, population := population, selections := sel,
        output := output ++ ["Current Best: " ++ toString (accumulate best 0)] }
      = some { stage := .crossed, population := population, selections := crossed,
               output := output ++ ["Current Best: " ++ toString (accumulate best 0)] } := by
    simp only [step, hcr, Option.bind_eq_bind, Option.some_bind]
  have h3 : step rand draws
      { stage := .crossed, population := population, selections := crossed,
        output := output ++ ["Current Best: " ++ toString (accumulate best 0)] }
      = some { stage := .reassembled, population := flat, selections := crossed,
               output := output ++ ["Current Best: " ++ toString (accumulate best 0)] } := by
    simp only [step, hre, Option.bind_eq_bind, Option.some_bind]
  have h4 : step rand draws
      { stage := .reassembled, population := flat, selections := crossed,
        output := output ++ ["Current Best: " ++ toString (accumulate best 0)] }
      = some { stage := .mutated, population := mutation draws flat, selections := crossed,
               output := output ++ ["Current Best: " ++ toString (accumulate best 0)] } := by
    simp only [step]
  have h5 : step rand draws
      { stage := .mutated, population := mutation draws flat, selections := crossed,
        output := output ++ ["Current Best: " ++ toString (accumulate best 0)] }
      = some { stage := .loopTest, population := evaluate (mutation draws flat),
               selections := crossed,
               output := output ++ ["Current Best: " ++ toString (accumulate best 0)] } := by
    simp only [step]
  exact Run.step rand draws _ _ (Run.step rand draws _ _ (Run.step rand draws _ _
    (Run.step rand draws _ _ (Run.step rand draws _ _ (Run.refl) h1) h2) h3) h4) h5

theorem run_exit (s : State) (best : Genome) (hstage : s.stage = .loopTest)
    (hhead : s.population.head? = some best) (hacc : accumulate best 0 = 1000) :
    ∃ t, Run s t ∧ t.stage = .finished := by
  obtain ⟨stage, population, selections, output⟩ := s
  simp only at hstage hhead
  subst hstage
  have hc : ¬ ((accumulate best 0 != 1000) = true) := by simp [hacc]
  have h1 : step (fun _ => 0) noMutation
      { stage := .loopTest, population := population, selections := selections,
        output := output }
      = some { stage := .finished, population := population, selections := selections,
               output := output ++ ["Best: " ++ toString (accumulate best 0),
                                    "Individual: " ++ printIndividual best] } := by
    simp only [step, hhead, Option.bind_eq_bind, Option.some_bind]
    rw [if_neg hc]
  exact ⟨_, Run.step _ _ _ _ (Run.refl) h1, rfl⟩

/-! ### Merging the two best genomes -/

theorem sum_replicate_one (n : Nat) : (List.replicate n (1 : Int)).sum = (n : Int) := by
  rw [List.sum_replicate]
  simp

theorem sum_replicate_zero (n : Nat) : (List.replicate n (0 : Int)).sum = 0 := by
  rw [List.sum_replicate]
  simp

theorem fitness_onesFirst (g : Genome) : fitness (onesFirst g) = ((g.count 1 : Nat) : Int) := by
  unfold fitness onesFirst
  rw [List.sum_append, sum_replicate_one, sum_replicate_zero, add_zero]

theorem fitness_onesLast (g : Genome) : fitness (onesLast g) = ((g.count 1 : Nat) : Int) := by
  unfold fitness onesLast
  rw [List.sum_append, sum_replicate_one, sum_replicate_zero, zero_add]

theorem length_onesFirst (g : Genome) : (onesFirst g).length = g.count 1 + g.count 0 := by
  unfold onesFirst
  rw [List.length_append, List.length_replicate, List.length_replicate]

theorem length_onesLast (g : Genome) : (onesLast g).length = g.count 0 + g.count 1 := by
  unfold onesLast
  rw [List.length_append, List.length_replicate, List.length_replicate]

theorem fitness_merge (gA gB : Genome) (h : gA.count 1 < gB.count 0 + gB.count 1)
    (hb : 0 < gB.count 1) :
    (gA.count 1 : Int) + 1
      ≤ fitness ((onesFirst gA).take (gA.count 1) ++ (onesLast gB).drop (gA.count 1)) := by
  have htake : (onesFirst gA).take (gA.count 1) = List.replicate (gA.count 1) 1 := by
    unfold onesFirst
    exact List.take_left' (List.length_replicate _ _)
  have hdrop : (onesLast gB).drop (gA.count 1)
      = List.replicate (gB.count 0 - gA.count 1) 0
        ++ List.replicate (gB.count 1 - (gA.count 1 - gB.count 0)) 1 := by
    unfold onesLast
    rw [List.drop_append_eq_append_drop, List.drop_replicate, List.drop_replicate,
      List.length_replicate]
  unfold fitness
  rw [htake, hdrop, List.sum_append, List.sum_append, sum_replicate_one, sum_replicate_zero,
    sum_replicate_one]
  omega

theorem head_is_max (population : Population) (best : Genome)
    (hsorted : population.Pairwise (fun a b => fitness b ≤ fitness a))
    (hhead : population.head? = some best) :
    ∀ g ∈ population, fitness g ≤ fitness best := by
  cases population with
  | nil => cases hhead
  | cons x xs =>
    simp only [List.head?_cons, Option.some.injEq] at hhead
    subst hhead
    intro g hg
    rcases List.mem_cons.1 hg with rfl | hg
    · exact le_refl _
    · exact (List.pairwise_cons.1 hsorted).1 g hg

theorem totalFitness_nonpos (population : Population) (h : ∀ g ∈ population, fitness g ≤ 0) :
    totalFitness population ≤ 0 := by
  induction population with
  | nil => exact le_refl _
  | cons x xs ih =>
    have hx := h x (List.mem_cons_self _ _)
    have hxs := ih (fun g hg => h g (List.mem_cons_of_mem _ hg))
    unfold totalFitness at hxs ⊢
    rw [List.map_cons, List.sum_cons]
    omega

theorem arranged_generation (total : Int) (s : State) (rand : Nat → Nat)
    (hstage : s.stage = .loopTest) (hinv : StateInvariant total s)
    (best : Genome) (hhead : s.population.head? = some best)
    (hne : accumulate best 0 ≠ 1000) :
    ∃ (sel crossed : List Pairing) (t : State),
      selection s.population s.selections = some sel ∧ s.population = flattenPairs sel ∧
      crossover rand sel = some crossed ∧
      Run s t ∧ t.stage = .loopTest ∧ StateInvariant total t ∧
      t.population.Pairwise (fun a b => fitness b ≤ fitness a) ∧ Arranged t.population ∧
      ∀ g ∈ flattenPairs crossed, ∃ g1 ∈ t.population, fitness g1 = fitness g := by
  obtain ⟨hpop, hsels, htot, _⟩ := hinv
  obtain ⟨sel, crossed, flat, hsel, hflat, _, hcr, hcrOf, hre, hflat2, hflatOf, htot2, _⟩ :=
    generation_spec (fun x => x = 0 ∨ x = 1) IsShort rand noMutation s.population
      s.selections hpop hsels
  obtain ⟨draws, harr, hfit⟩ := arrange flat hflatOf
  have hmut := mutation_populationOf _ draws flat hflatOf
  have hrun := run_generation s rand draws best sel crossed flat hstage hhead hne hsel hcr hre
  refine ⟨sel, crossed, _, hsel, hflat, hcr, hrun, rfl, ?_, ?_, harr, ?_⟩
  · refine ⟨evaluate_populationOf _ _ hmut, selectionsOf_mono _ _ isShort_of_bit _ hcrOf, ?_,
      fun hst => by rcases hst with hst | hst <;> cases hst⟩
    simp only []
    rw [totalFitness_evaluate, totalFitness_mutation, htot2]
    exact htot
  · exact evaluate_pairwise_fitness _
      (fun g hg => ⟨(hmut.2 g hg).1, fun x hx => isShort_of_bit x ((hmut.2 g hg).2 x hx)⟩)
  · intro g hg
    rw [← hflat2] at hg
    exact hfit g hg

theorem head_of_binaryPopulation (population : Population)
    (h : IsBinaryPopulation population) :
    ∃ best, population.head? = some best ∧ best ∈ population ∧ IsGenome best ∧
      0 ≤ fitness best ∧ fitness best ≤ (L : Int) := by
  cases hp : population with
  | nil =>
    have := h.1
    rw [hp] at this
    exact absurd this (by decide)
  | cons best rest =>
    have hmem : best ∈ population := by rw [hp]; exact List.mem_cons_self _ _
    have hb := h.2 best hmem
    exact ⟨best, rfl, by rw [← hp]; exact hmem,
      ⟨hb.1, fun x hx => isShort_of_bit x (hb.2 x hx)⟩, binary_fitness_bounds best hb⟩

theorem arranged_progress (total : Int) (s : State)
    (hstage : s.stage = .loopTest) (hinv : StateInvariant total s) (hL : (L : Int) ≤ total)
    (hsorted : s.population.Pairwise (fun a b => fitness b ≤ fitness a))
    (harr : Arranged s.population)
    (best : Genome) (hhead : s.population.head? = some best)
    (hne : accumulate best 0 ≠ 1000) :
    ∃ t, Run s t ∧ t.stage = .loopTest ∧ StateInvariant total t ∧
      t.population.Pairwise (fun a b => fitness b ≤ fitness a) ∧ Arranged t.population ∧
      ∃ best1, t.population.head? = some best1 ∧ fitness best < fitness best1 := by
  have hLval : (L : Int) = 1000 := rfl
  obtain ⟨gA, gB, rest, hpopeq⟩ := harr
  have hbest : best = onesFirst gA := by
    rw [hpopeq, List.head?_cons] at hhead
    exact (Option.some.inj hhead).symm
  subst hbest
  have hA := hinv.1.2 (onesFirst gA) (by rw [hpopeq]; exact List.mem_cons_self _ _)
  have hB := hinv.1.2 (onesLast gB)
    (by rw [hpopeq]; exact List.mem_cons_of_mem _ (List.mem_cons_self _ _))
  have hlenA : gA.count 1 + gA.count 0 = 1000 := by rw [← length_onesFirst]; exact hA.1
  have hlenB : gB.count 0 + gB.count 1 = 1000 := by rw [← length_onesLast]; exact hB.1
  have hgenA : IsGenome (onesFirst gA) := ⟨hA.1, fun x hx => isShort_of_bit x (hA.2 x hx)⟩
  have hfitA : fitness (onesFirst gA) ≠ 1000 := by
    rw [← accumulate_eq_fitness _ hgenA]
    exact hne
  rw [fitness_onesFirst] at hfitA
  have ha : gA.count 1 < 1000 := by omega
  have hb : 0 < gB.count 1 := by
    by_contra hcon
    have hb0 : gB.count 1 = 0 := by omega
    have hsorted2 := hsorted
    rw [hpopeq] at hsorted2
    have hrest : ∀ g ∈ rest, fitness g ≤ 0 := by
      intro g hg
      have := (List.pairwise_cons.1 (List.pairwise_cons.1 hsorted2).2).1 g hg
      rw [fitness_onesLast, hb0] at this
      exact this
    have htotal : total
        = fitness (onesFirst gA) + (fitness (onesLast gB) + totalFitness rest) := by
      rw [← hinv.2.2.1, hpopeq]
      unfold totalFitness
      rw [List.map_cons, List.map_cons, List.sum_cons, List.sum_cons]
    have hnp := totalFitness_nonpos rest hrest
    rw [fitness_onesFirst, fitness_onesLast, hb0] at htotal
    omega
  obtain ⟨sel, crossed, t, hsel, hflat, hcr, hrun, hst, hinvt, hsortedt, harrt, hfit⟩ :=
    arranged_generation total s (fun k => if k = 0 then gA.count 1 else 0) hstage hinv
      (onesFirst gA) hhead hne
  have hsized : ∀ p ∈ sel, p.1.length = L ∧ p.2.length = L := by
    intro p hp
    have h1 : p.1 ∈ s.population := by
      rw [hflat]; exact (mem_flattenPairs sel p.1).2 ⟨p, hp, Or.inl rfl⟩
    have h2 : p.2 ∈ s.population := by
      rw [hflat]; exact (mem_flattenPairs sel p.2).2 ⟨p, hp, Or.inr rfl⟩
    exact ⟨(hinv.1.2 _ h1).1, (hinv.1.2 _ h2).1⟩
  have hsel0 : sel[0]? = some (onesFirst gA, onesLast gB) := by
    rw [hpopeq] at hflat
    cases sel with
    | nil => cases hflat
    | cons p sel1 =>
      rw [flattenPairs] at hflat
      have h1 := (List.cons.inj hflat).1
      have h2 := (List.cons.inj (List.cons.inj hflat).2).1
      rw [List.getElem?_cons_zero, h1, h2]
  obtain ⟨out, hout, _, hout0⟩ := crossover_at (fun k => if k = 0 then gA.count 1 else 0) sel
    hsized 0 (onesFirst gA) (onesLast gB) hsel0
  rw [hcr] at hout
  cases hout
  have hpoint : (fun k => if k = 0 then gA.count 1 else 0) 0 % L = gA.count 1 := by
    show gA.count 1 % 1000 = gA.count 1
    exact Nat.mod_eq_of_lt ha
  rw [hpoint] at hout0
  have hmem : (onesFirst gA).take (gA.count 1) ++ (onesLast gB).drop (gA.count 1)
      ∈ flattenPairs crossed :=
    (mem_flattenPairs crossed _).2 ⟨_, List.getElem?_mem hout0, Or.inl rfl⟩
  obtain ⟨g1, hg1, hfit1⟩ := hfit _ hmem
  have hmerge := fitness_merge gA gB (by omega) hb
  obtain ⟨best1, hhead1, _, _, _, _⟩ := head_of_binaryPopulation t.population hinvt.1
  refine ⟨t, hrun, hst, hinvt, hsortedt, harrt, best1, hhead1, ?_⟩
  have hmax := head_is_max t.population best1 hsortedt hhead1 g1 hg1
  rw [fitness_onesFirst]
  omega

theorem reach_finished (total : Int) (hL : (L : Int) ≤ total) (n : Nat) :
    ∀ s : State, s.stage = .loopTest → StateInvariant total s →
      s.population.Pairwise (fun a b => fitness b ≤ fitness a) → Arranged s.population →
      (∀ best, s.population.head? = some best → (L : Int) - (n : Int) ≤ fitness best) →
      ∃ t, Run s t ∧ t.stage = .finished := by
  induction n with
  | zero =>
    intro s hstage hinv _ _ hbound
    obtain ⟨best, hhead, _, hgen, _, hle⟩ := head_of_binaryPopulation s.population hinv.1
    have hge := hbound best hhead
    have hfit : fitness best = 1000 := by
      have hLval : (L : Int) = 1000 := rfl
      simp only [Nat.cast_zero, sub_zero] at hge
      omega
    exact run_exit s best hstage hhead (by rw [accumulate_eq_fitness best hgen]; exact hfit)
  | succ n ih =>
    intro s hstage hinv hsorted harr hbound
    obtain ⟨best, hhead, _, hgen, _, _⟩ := head_of_binaryPopulation s.population hinv.1
    by_cases hacc : accumulate best 0 = 1000
    · exact run_exit s best hstage hhead hacc
    · obtain ⟨t, hrun, hst, hinvt, hsortedt, harrt, best1, hhead1, hlt⟩ :=
        arranged_progress total s hstage hinv hL hsorted harr best hhead hacc
      have hge := hbound best hhead
      obtain ⟨u, htu, hfin⟩ := ih t hst hinvt hsortedt harrt (by
        intro b hb
        rw [hhead1] at hb
        cases hb
        have hLval : (L : Int) = 1000 := rfl
        push_cast at hge
        omega)
      exact ⟨u, run_trans s t u hrun htu, hfin⟩

/-! ### From which initial populations `main` can finish -/

theorem startState_invariant (rand : Nat → Nat) (stale : List Pairing)
    (hs : IsSelections stale) :
    StateInvariant (totalFitness (initPopulation rand)) (startState rand stale) := by
  have h1 : IsBinaryPopulation (evaluate (initPopulation rand)) :=
    evaluate_populationOf (fun x => x = 0 ∨ x = 1) (initPopulation rand)
      (initPopulation_binary rand)
  have h2 : totalFitness (evaluate (initPopulation rand))
      = totalFitness (initPopulation rand) := totalFitness_evaluate (initPopulation rand)
  unfold StateInvariant startState
  dsimp only
  exact ⟨h1, hs, h2, fun hst => by rcases hst with hst | hst <;> cases hst⟩

theorem run_finished_best (total : Int) (s t : State) (hinv : StateInvariant total s)
    (hs : s.stage ≠ .finished) (hrun : Run s t) (hfin : t.stage = .finished) :
    (L : Int) ≤ total ∧ ∃ best, t.population.head? = some best ∧ fitness best = (L : Int) := by
  cases hrun with
  | refl => exact absurd hfin hs
  | step rand draws u _ hsu hut =>
    obtain ⟨_, hpop, best, hhead, hacc⟩ := step_finished rand draws u t hut hfin
    have hinvu := run_invariant total s u hinv hsu
    refine ⟨finished_total total u hinvu best hhead hacc, best, by rw [hpop]; exact hhead, ?_⟩
    have hb := hinvu.1.2 best (List.mem_of_mem_head? hhead)
    have hgen : IsGenome best := ⟨hb.1, fun x hx => isShort_of_bit x (hb.2 x hx)⟩
    rw [← accumulate_eq_fitness best hgen]
    exact hacc

theorem run_to_finished (rand : Nat → Nat) (stale : List Pairing) (hs : IsSelections stale)
    (hL : (L : Int) ≤ totalFitness (initPopulation rand)) :
    ∃ t, Run (startState rand stale) t ∧ t.stage = .finished := by
  have hinv := startState_invariant rand stale hs
  obtain ⟨best, hhead, _, hgen, hnn, _⟩ :=
    head_of_binaryPopulation (startState rand stale).population hinv.1
  by_cases hacc : accumulate best 0 = 1000
  · exact run_exit _ best rfl hhead hacc
  · obtain ⟨_, _, t, _, _, _, hrun, hst, hinvt, hsortedt, harrt, _⟩ :=
      arranged_generation _ (startState rand stale) (fun _ => 0) rfl hinv best hhead hacc
    obtain ⟨u, htu, hfin⟩ := reach_finished _ hL 1000 t hst hinvt hsortedt harrt (by
      intro b hb
      have := (binary_fitness_bounds b
        (hinvt.1.2 b (List.mem_of_mem_head? hb))).1
      have hLval : (L : Int) = 1000 := rfl
      push_cast
      omega)
    exact ⟨u, run_trans _ t u hrun htu, hfin⟩

theorem initPopulation_zeros : initPopulation (fun _ => 0) = zeroPopulation := by
  have hbit : (((0 : Nat) &&& 1 : Nat) : Int) = 0 := by decide
  have hrow : (List.range 1000).map (fun _ => (((0 : Nat) &&& 1 : Nat) : Int)) = zeroGenome := by
    rw [List.map_const', List.length_range, hbit, zeroGenome]
  unfold initPopulation
  simp only []
  rw [hrow, List.map_const', List.length_range, zeroPopulation]

theorem totalFitness_zeroPopulation : totalFitness zeroPopulation = 0 := by
  unfold totalFitness zeroPopulation
  rw [List.map_replicate, fitness_zeroGenome, List.sum_replicate]
  simp

theorem isBinaryPopulation_zeroPopulation : IsBinaryPopulation zeroPopulation := by
  have := initPopulation_binary (fun _ => 0)
  rw [initPopulation_zeros] at this
  exact this

theorem totalFitness_onePopulation : totalFitness onePopulation = 100000 := by
  unfold totalFitness onePopulation
  rw [List.map_replicate, fitness_oneGenome, List.sum_replicate]
  simp

theorem reachable_iff_run (s : State) :
    Reachable s ↔ ∃ (rand : Nat → Nat) (stale : List Pairing),
      IsSelections stale ∧ Run (startState rand stale) s := by
  constructor
  · intro h
    induction h with
    | init rand selections hsel => exact ⟨rand, selections, hsel, Run.refl⟩
    | step rand draws s t _ ht ih =>
      obtain ⟨rand0, stale, hstale, hrun⟩ := ih
      exact ⟨rand0, stale, hstale, Run.step rand draws s t hrun ht⟩
  · rintro ⟨rand0, stale, hstale, hrun⟩
    induction hrun with
    | refl => exact Reachable.init rand0 stale hstale
    | step rand draws t u _ htu ih => exact Reachable.step rand draws t u ih htu

/-! ## The claims -/

/-- C1: single-point crossover is exact.  For selections whose genomes all have length
`L`, `crossover` succeeds, keeps the number of pairs, and turns pair `k = (A, B)` into
`(A[0:c] ++ B[c:L], B[0:c] ++ A[c:L])`, where `c = rand() % 1000` is the crossover point
of that pair; `rand` is arbitrary, so `c` ranges over every point of `[0, L)`.  The same
is stated for one pass of the loop body: for every pair `(A, B)` of genomes of length `L`,
every point `c < L` and every state of `temp`, the body leaves exactly these two
genomes. -/
theorem crossover_exact (rand : Nat → Nat) (selections : List Pairing)
    (h : ∀ p ∈ selections, p.1.length = L ∧ p.2.length = L) :
    (∃ out, crossover rand selections = some out ∧ out.length = selections.length ∧
      ∀ (k : Nat) (A B : Genome), selections[k]? = some (A, B) →
        out[k]? = some (A.take (rand k % L) ++ B.drop (rand k % L),
                        B.take (rand k % L) ++ A.drop (rand k % L))) ∧
    ∀ (A B : Genome) (c : Nat) (temp : Scratch),
      A.length = L → B.length = L → temp.length = L → c < L →
      ∃ temp1, crossoverBody c temp (A, B)
        = some (temp1, (A.take c ++ B.drop c, B.take c ++ A.drop c)) := by
  refine ⟨crossoverLoop_spec selections rand (List.replicate 1000 none)
    (List.length_replicate _ _) h, ?_⟩
  intro A B c temp hA hB ht hc
  exact ⟨_, crossoverBody_eq c temp A B (hA.trans hB.symm) (ht.trans hA.symm)
    (by rw [hA]; exact hc.le)⟩

theorem crossover_exact_witness :
    (∀ p ∈ [(zeroGenome, oneGenome)], p.1.length = L ∧ p.2.length = L) ∧
    (∃ out, crossover (fun _ => 2500) [(zeroGenome, oneGenome)] = some out ∧
      out.length = [(zeroGenome, oneGenome)].length ∧
      ∀ (k : Nat) (A B : Genome), [(zeroGenome, oneGenome)][k]? = some (A, B) →
        out[k]? = some (A.take ((fun _ => 2500) k % L) ++ B.drop ((fun _ => 2500) k % L),
                        B.take ((fun _ => 2500) k % L) ++ A.drop ((fun _ => 2500) k % L))) ∧
    ∀ (A B : Genome) (c : Nat) (temp : Scratch),
      A.length = L → B.length = L → temp.length = L → c < L →
      ∃ temp1, crossoverBody c temp (A, B)
        = some (temp1, (A.take c ++ B.drop c, B.take c ++ A.drop c)) :=
  have hsz : ∀ p ∈ [(zeroGenome, oneGenome)], p.1.length = L ∧ p.2.length = L := by
    intro p hp
    rw [List.mem_singleton] at hp
    subst hp
    exact ⟨List.length_replicate _ _, List.length_replicate _ _⟩
  ⟨hsz, crossover_exact (fun _ => 2500) _ hsz⟩

/-- C2: sort invariant.  For every well-typed population, after `evaluate` the population
still has `N` individuals and `fitness(population[i]) ≥ fitness(population[i+1])` for
every `i` with `i + 1 < N`, where fitness is the sum of the entries. -/
theorem evaluate_sorted (population : Population) (h : IsPopulation population) :
    (evaluate population).length = N ∧
    ∀ i, i + 1 < N → ∃ a b, (evaluate population)[i]? = some a ∧
      (evaluate population)[i + 1]? = some b ∧ fitness a ≥ fitness b := by
  have hlen : (evaluate population).length = N := (evaluate_perm population).length_eq.trans h.1
  refine ⟨hlen, ?_⟩
  intro i hi
  have hi0 : i < (evaluate population).length := by omega
  have hi1 : i + 1 < (evaluate population).length := by omega
  refine ⟨(evaluate population)[i], (evaluate population)[i + 1],
    List.getElem?_eq_getElem hi0, List.getElem?_eq_getElem hi1, ?_⟩
  exact List.pairwise_iff_getElem.1 (evaluate_pairwise_fitness population h.2) i (i + 1) hi0 hi1
    (Nat.lt_succ_self i)

theorem evaluate_sorted_witness :
    IsPopulation zeroPopulation ∧ (evaluate zeroPopulation).length = N ∧
    ∀ i, i + 1 < N → ∃ a b, (evaluate zeroPopulation)[i]? = some a ∧
      (evaluate zeroPopulation)[i + 1]? = some b ∧ fitness a ≥ fitness b :=
  ⟨isPopulation_zeroPopulation, evaluate_sorted zeroPopulation isPopulation_zeroPopulation⟩

/-- C3: `evaluate` only reorders.  For every population the result of `evaluate` is a
permutation of the population it was given: the same multiset of genomes, hence also
the same number of individuals. -/
theorem evaluate_is_permutation (population : Population) :
    (evaluate population).Perm population ∧
    (evaluate population).length = population.length ∧
    ((evaluate population : Population) : Multiset Genome) = (population : Multiset Genome) :=
  ⟨evaluate_perm population, (evaluate_perm population).length_eq,
    Multiset.coe_eq_coe.2 (evaluate_perm population)⟩

/-- C4: mutation fitness invariance.  For every population and every outcome of the
random draws, `mutation` keeps the number of individuals, and the genome of individual
`i` afterwards is a permutation of its genome before: it has as many `1`s, as many
`0`s, the same length and the same sum. -/
theorem mutation_fitness_invariant (draws : Nat → MutationDraw) (population : Population) :
    (mutation draws population).length = population.length ∧
    ∀ (i : Nat) (g : Genome), population[i]? = some g →
      ∃ g', (mutation draws population)[i]? = some g' ∧ g'.Perm g ∧
        g'.count 1 = g.count 1 ∧ g'.count 0 = g.count 0 ∧
        g'.length = g.length ∧ fitness g' = fitness g := by
  refine ⟨mutation_length population draws, ?_⟩
  intro i g h
  obtain ⟨g', hg', hperm⟩ := mutation_perm_each population draws i g h
  exact ⟨g', hg', hperm, hperm.count_eq 1, hperm.count_eq 0, hperm.length_eq, hperm.sum_eq⟩

/-- C5: fitness bounds and binary domain.  The initial population is binary; `evaluate`,
`selection`, `crossover`, the reassembly loop and `mutation` each succeed on binary
input and give binary output of the same shape; hence in every state `main` can reach,
every entry of every genome of the population is `0` or `1` and every fitness lies in
`[0, L]`, and the same holds for the genomes of `selections` at every control point
inside the loop body, where `selection` has filled them. -/
theorem binary_domain_invariant :
    (∀ rand : Nat → Nat, IsBinaryPopulation (initPopulation rand)) ∧
    (∀ population : Population, IsBinaryPopulation population →
      IsBinaryPopulation (evaluate population)) ∧
    (∀ (population : Population) (selections : List Pairing),
      IsBinaryPopulation population → IsSelections selections →
      ∃ out, selection population selections = some out ∧ IsBinarySelections out) ∧
    (∀ (rand : Nat → Nat) (selections : List Pairing), IsBinarySelections selections →
      ∃ out, crossover rand selections = some out ∧ IsBinarySelections out) ∧
    (∀ (population : Population) (selections : List Pairing),
      IsPopulation population → IsBinarySelections selections →
      ∃ out, reassemble population selections = some out ∧ IsBinaryPopulation out) ∧
    (∀ (draws : Nat → MutationDraw) (population : Population),
      IsBinaryPopulation population → IsBinaryPopulation (mutation draws population)) ∧
    (∀ s : State, Reachable s →
      (∀ g ∈ s.population, IsBinary g ∧ 0 ≤ fitness g ∧ fitness g ≤ (L : Int)) ∧
      (s.stage ≠ .loopTest → s.stage ≠ .finished → ∀ p ∈ s.selections,
        (IsBinary p.1 ∧ 0 ≤ fitness p.1 ∧ fitness p.1 ≤ (L : Int)) ∧
        (IsBinary p.2 ∧ 0 ≤ fitness p.2 ∧ fitness p.2 ≤ (L : Int)))) := by
  refine ⟨initPopulation_binary, fun population h => evaluate_populationOf _ population h,
    ?_, fun rand selections h => crossover_selectionsOf _ rand selections h, ?_,
    fun draws population h => mutation_populationOf _ draws population h, ?_⟩
  · intro population selections hp hs
    obtain ⟨out, hout, hsel, _⟩ := selection_selectionsOf _ IsShort population selections hp hs
    exact ⟨out, hout, hsel⟩
  · intro population selections hp hs
    obtain ⟨out, hout, hnew, _⟩ :=
      reassemble_populationOf (fun x => x = 0 ∨ x = 1) IsShort population selections hp hs
    exact ⟨out, by simp [reassemble, hout], hnew⟩
  · intro s hs
    obtain ⟨hpop, _, hsel⟩ := reachable_invariant s hs
    refine ⟨fun g hg => ⟨(hpop.2 g hg).2, binary_fitness_bounds g (hpop.2 g hg)⟩, ?_⟩
    intro hst1 hst2 p hp
    have := (hsel hst1 hst2).2 p hp
    exact ⟨⟨this.1.2, binary_fitness_bounds _ this.1⟩, ⟨this.2.2, binary_fitness_bounds _ this.2⟩⟩

/-- C6: termination correctness.  In every state in which `main` has left its loop, the
first individual of the population has fitness exactly `L`, all of its `L` entries are
`1`, and the last two lines written are `Best: 1000` and `Individual: ` followed by
exactly `L` characters `1`. -/
theorem termination_correct (s : State) (h : Reachable s) (hfin : s.stage = .finished) :
    ∃ best, s.population.head? = some best ∧ fitness best = (L : Int) ∧
      accumulate best 0 = 1000 ∧ best.length = L ∧ (∀ x ∈ best, x = 1) ∧
      best = oneGenome ∧
      ∃ earlier : List String, s.output = earlier ++
        ["Best: 1000", "Individual: " ++ String.mk (List.replicate L '1')] := by
  obtain ⟨best, earlier, hhead, hacc, hout⟩ := finished_inversion s h hfin
  obtain ⟨hpop, _, _⟩ := reachable_invariant s h
  have hmem : best ∈ s.population := List.mem_of_mem_head? hhead
  have hbest := hpop.2 best hmem
  have hgen : IsGenome best := ⟨hbest.1, fun x hx => isShort_of_bit x (hbest.2 x hx)⟩
  have hfit : fitness best = 1000 := by rw [← accumulate_eq_fitness best hgen]; exact hacc
  have hsum : best.sum = (best.length : Int) := by
    rw [hbest.1]
    exact hfit
  have hones : best = List.replicate best.length 1 := binary_sum_eq_length best hbest.2 hsum
  have hone : best = oneGenome := by
    rw [hbest.1] at hones
    exact hones
  refine ⟨best, hhead, hfit, hacc, hbest.1, ?_, hone, earlier, ?_⟩
  · intro x hx
    rw [hones] at hx
    exact List.eq_of_mem_replicate hx
  · rw [hout, hacc, hone]
    have hp : printIndividual oneGenome = String.mk (List.replicate L '1') :=
      printIndividual_ones 1000
    rw [hp]
    rfl

theorem termination_correct_witness :
    Reachable finishedOfOnes ∧ finishedOfOnes.stage = .finished ∧
    ∃ best, finishedOfOnes.population.head? = some best ∧ fitness best = (L : Int) ∧
      accumulate best 0 = 1000 ∧ best.length = L ∧ (∀ x ∈ best, x = 1) ∧
      best = oneGenome ∧
      ∃ earlier : List String, finishedOfOnes.output = earlier ++
        ["Best: 1000", "Individual: " ++ String.mk (List.replicate L '1')] :=
  ⟨reachable_finishedOfOnes, rfl,
    termination_correct finishedOfOnes reachable_finishedOfOnes rfl⟩

/-- C7: the selector pairs adjacent slots.  For every well-typed population of `N`
individuals (and whatever `selections` held before), `selection` succeeds, fills
exactly `N / 2` pairings, and pairing `k` is `(population[2k], population[2k+1])` for
every `k < N / 2`. -/
theorem selection_pairs_adjacent (population : Population) (selections : List Pairing)
    (hp : IsPopulation population) (hs : IsSelections selections) :
    ∃ out, selection population selections = some out ∧ out.length = N / 2 ∧
      ∀ k, k < N / 2 → ∃ a b, population[2 * k]? = some a ∧
        population[2 * k + 1]? = some b ∧ out[k]? = some (a, b) := by
  obtain ⟨out, hout, hsel, hget⟩ :=
    selection_selectionsOf IsShort IsShort population selections hp hs
  exact ⟨out, hout, hsel.1, hget⟩

theorem selection_pairs_adjacent_witness :
    IsPopulation zeroPopulation ∧ IsSelections zeroSelections ∧
    ∃ out, selection zeroPopulation zeroSelections = some out ∧ out.length = N / 2 ∧
      ∀ k, k < N / 2 → ∃ a b, zeroPopulation[2 * k]? = some a ∧
        zeroPopulation[2 * k + 1]? = some b ∧ out[k]? = some (a, b) :=
  ⟨isPopulation_zeroPopulation, isSelections_zeroSelections,
    selection_pairs_adjacent zeroPopulation zeroSelections isPopulation_zeroPopulation
      isSelections_zeroSelections⟩

/-- C8: reassembly flattens the pairings in order.  For every well-typed array of
`N / 2` pairings (and whatever the population held before), the reassembly loop
succeeds and leaves a population of exactly `N` individuals with
`population[2k] = pairings[k].first` and `population[2k+1] = pairings[k].second` for
every `k < N / 2`. -/
theorem reassemble_flattens (population : Population) (selections : List Pairing)
    (hp : IsPopulation population) (hs : IsSelections selections) :
    ∃ out, reassemble population selections = some out ∧ out.length = N ∧
      ∀ k, k < N / 2 → ∃ a b, selections[k]? = some (a, b) ∧
        out[2 * k]? = some a ∧ out[2 * k + 1]? = some b := by
  obtain ⟨out, hout, hnew, hget⟩ :=
    reassemble_populationOf IsShort IsShort population selections hp hs
  exact ⟨out, by simp [reassemble, hout], hnew.1, hget⟩

theorem reassemble_flattens_witness :
    IsPopulation zeroPopulation ∧ IsSelections zeroSelections ∧
    ∃ out, reassemble zeroPopulation zeroSelections = some out ∧ out.length = N ∧
      ∀ k, k < N / 2 → ∃ a b, zeroSelections[k]? = some (a, b) ∧
        out[2 * k]? = some a ∧ out[2 * k + 1]? = some b :=
  ⟨isPopulation_zeroPopulation, isSelections_zeroSelections,
    reassemble_flattens zeroPopulation zeroSelections isPopulation_zeroPopulation
      isSelections_zeroSelections⟩

/-- C9: after `evaluate`, `population[0]` is the best individual.  For every well-typed
population the first individual after `evaluate` exists, comes from the population, and
its fitness is at least the fitness of every individual; the value the loop of `main`
tests against `1000` and prints as `Current Best` is that maximal fitness. -/
theorem evaluate_front_is_best (population : Population) (h : IsPopulation population) :
    ∃ best, (evaluate population).head? = some best ∧ best ∈ population ∧
      (∀ g ∈ population, fitness g ≤ fitness best) ∧
      (∀ g ∈ evaluate population, fitness g ≤ fitness best) ∧
      accumulate best 0 = fitness best ∧
      ∀ (rand : Nat → Nat) (draws : Nat → MutationDraw) (selections : List Pairing)
        (output : List String) (t : State),
        step rand draws { stage := .loopTest, population := evaluate population,
                          selections := selections, output := output } = some t →
          (t.stage = .finished ↔ fitness best = 1000) ∧
          (t.stage = .selected ↔ fitness best ≠ 1000) ∧
          (t.stage = .selected →
            t.output = output ++ ["Current Best: " ++ toString (fitness best)]) := by
  have hperm := evaluate_perm population
  have hpw := evaluate_pairwise_fitness population h.2
  cases hE : evaluate population with
  | nil =>
    have := hperm.length_eq
    rw [hE, h.1] at this
    exact absurd this (by decide)
  | cons best rest =>
    rw [hE] at hpw hperm
    have hbest : best ∈ population := hperm.subset (List.mem_cons_self _ _)
    have hmax : ∀ g ∈ best :: rest, fitness g ≤ fitness best := by
      intro g hg
      rcases List.mem_cons.1 hg with rfl | hg
      · exact le_refl _
      · exact (List.pairwise_cons.1 hpw).1 g hg
    have hacc : accumulate best 0 = fitness best := accumulate_eq_fitness best (h.2 best hbest)
    refine ⟨best, rfl, hbest, fun g hg => hmax g (hperm.symm.subset hg), hmax, hacc, ?_⟩
    intro rand draws selections output t ht
    simp only [step, List.head?_cons, Option.bind_eq_bind, Option.some_bind, hacc] at ht
    by_cases hfit : fitness best = 1000
    · simp only [hfit, bne_self_eq_false, Bool.false_eq_true, if_false, Option.some.injEq] at ht
      subst ht
      simp [hfit]
    · have hne : (fitness best != 1000) = true := by simpa using hfit
      simp only [hne, if_true] at ht
      cases hsel : selection (best :: rest) selections with
      | none => simp [hsel] at ht
      | some sel =>
        simp only [hsel, Option.some_bind, Option.some.injEq] at ht
        subst ht
        simp [hfit]

theorem evaluate_front_is_best_witness :
    IsPopulation zeroPopulation ∧
    ∃ best, (evaluate zeroPopulation).head? = some best ∧ best ∈ zeroPopulation ∧
      (∀ g ∈ zeroPopulation, fitness g ≤ fitness best) ∧
      (∀ g ∈ evaluate zeroPopulation, fitness g ≤ fitness best) ∧
      accumulate best 0 = fitness best ∧
      ∀ (rand : Nat → Nat) (draws : Nat → MutationDraw) (selections : List Pairing)
        (output : List String) (t : State),
        step rand draws { stage := .loopTest, population := evaluate zeroPopulation,
                          selections := selections, output := output } = some t →
          (t.stage = .finished ↔ fitness best = 1000) ∧
          (t.stage = .selected ↔ fitness best ≠ 1000) ∧
          (t.stage = .selected →
            t.output = output ++ ["Current Best: " ++ toString (fitness best)]) :=
  ⟨isPopulation_zeroPopulation, evaluate_front_is_best zeroPopulation isPopulation_zeroPopulation⟩

/-- C10: size invariants.  On a well-typed population and `selections` array, under any
random outcomes: `selection` yields exactly `N / 2` pairings of genomes of length `L`;
`crossover` keeps `N / 2` pairings of genomes of length `L`; the reassembly loop yields
exactly `N` individuals of length `L`; `mutation` and `evaluate` keep `N` individuals of
length `L`; so does a whole generation; the initial population has this shape, and so
have the population and `selections` in every state `main` can reach. -/
theorem size_invariants (population : Population) (selections : List Pairing)
    (rand : Nat → Nat) (draws : Nat → MutationDraw)
    (hp : IsPopulation population) (hs : IsSelections selections) :
    (∃ out, selection population selections = some out ∧ out.length = N / 2 ∧
      ∀ p ∈ out, p.1.length = L ∧ p.2.length = L) ∧
    (∃ out, crossover rand selections = some out ∧ out.length = N / 2 ∧
      ∀ p ∈ out, p.1.length = L ∧ p.2.length = L) ∧
    (∃ out, reassemble population selections = some out ∧ out.length = N ∧
      ∀ g ∈ out, g.length = L) ∧
    ((mutation draws population).length = N ∧
      ∀ g ∈ mutation draws population, g.length = L) ∧
    ((evaluate population).length = N ∧ ∀ g ∈ evaluate population, g.length = L) ∧
    (∃ out, generation rand draws population selections = some out ∧
      (out.1.length = N ∧ ∀ g ∈ out.1, g.length = L) ∧
      (out.2.length = N / 2 ∧ ∀ p ∈ out.2, p.1.length = L ∧ p.2.length = L)) ∧
    ((initPopulation rand).length = N ∧ ∀ g ∈ initPopulation rand, g.length = L) ∧
    ∀ s : State, Reachable s →
      (s.population.length = N ∧ ∀ g ∈ s.population, g.length = L) ∧
      (s.selections.length = N / 2 ∧ ∀ p ∈ s.selections, p.1.length = L ∧ p.2.length = L) := by
  have popSize : ∀ (P : Int → Prop) (q : Population), PopulationOf P q →
      q.length = N ∧ ∀ g ∈ q, g.length = L :=
    fun P q h => ⟨h.1, fun g hg => (h.2 g hg).1⟩
  have selSize : ∀ (P : Int → Prop) (q : List Pairing), SelectionsOf P q →
      q.length = N / 2 ∧ ∀ p ∈ q, p.1.length = L ∧ p.2.length = L :=
    fun P q h => ⟨h.1, fun p hq => ⟨(h.2 p hq).1.1, (h.2 p hq).2.1⟩⟩
  obtain ⟨sel, hsel, hselOf, _⟩ :=
    selection_selectionsOf IsShort IsShort population selections hp hs
  obtain ⟨crossed, hcrossed, hcrossedOf⟩ := crossover_selectionsOf IsShort rand selections hs
  obtain ⟨flat, hflat, hflatOf, _⟩ :=
    reassemble_populationOf IsShort IsShort population selections hp hs
  obtain ⟨sel1, hsel1, hsel1Of⟩ := crossover_selectionsOf IsShort rand sel hselOf
  obtain ⟨pop1, hpop1, hpop1Of, _⟩ :=
    reassemble_populationOf IsShort IsShort population sel1 hp hsel1Of
  refine ⟨⟨sel, hsel, selSize _ _ hselOf⟩, ⟨crossed, hcrossed, selSize _ _ hcrossedOf⟩,
    ⟨flat, by simp [reassemble, hflat], popSize _ _ hflatOf⟩,
    popSize _ _ (mutation_populationOf IsShort draws population hp),
    popSize _ _ (evaluate_populationOf IsShort population hp),
    ⟨(evaluate (mutation draws pop1), sel1), ?_,
      popSize _ _ (evaluate_populationOf IsShort _ (mutation_populationOf IsShort draws pop1 hpop1Of)),
      selSize _ _ hsel1Of⟩,
    popSize _ _ (initPopulation_binary rand), ?_⟩
  · simp [generation, hsel, hsel1, reassemble, hpop1]
  · intro s hreach
    obtain ⟨hpop, hshort, _⟩ := reachable_invariant s hreach
    exact ⟨popSize _ _ hpop, selSize _ _ hshort⟩

theorem size_invariants_witness :
    IsPopulation zeroPopulation ∧ IsSelections zeroSelections ∧
    (∃ out, selection zeroPopulation zeroSelections = some out ∧ out.length = N / 2 ∧
      ∀ p ∈ out, p.1.length = L ∧ p.2.length = L) ∧
    (∃ out, crossover (fun k => 7 * k) zeroSelections = some out ∧ out.length = N / 2 ∧
      ∀ p ∈ out, p.1.length = L ∧ p.2.length = L) ∧
    (∃ out, reassemble zeroPopulation zeroSelections = some out ∧ out.length = N ∧
      ∀ g ∈ out, g.length = L) ∧
    ((mutation (fun _ => ⟨true, fun i => i⟩) zeroPopulation).length = N ∧
      ∀ g ∈ mutation (fun _ => ⟨true, fun i => i⟩) zeroPopulation, g.length = L) ∧
    ((evaluate zeroPopulation).length = N ∧ ∀ g ∈ evaluate zeroPopulation, g.length = L) ∧
    (∃ out, generation (fun k => 7 * k) (fun _ => ⟨true, fun i => i⟩) zeroPopulation
        zeroSelections = some out ∧
      (out.1.length = N ∧ ∀ g ∈ out.1, g.length = L) ∧
      (out.2.length = N / 2 ∧ ∀ p ∈ out.2, p.1.length = L ∧ p.2.length = L)) ∧
    ((initPopulation (fun k => 7 * k)).length = N ∧
      ∀ g ∈ initPopulation (fun k => 7 * k), g.length = L) ∧
    ∀ s : State, Reachable s →
      (s.population.length = N ∧ ∀ g ∈ s.population, g.length = L) ∧
      (s.selections.length = N / 2 ∧ ∀ p ∈ s.selections, p.1.length = L ∧ p.2.length = L) :=
  ⟨isPopulation_zeroPopulation, isSelections_zeroSelections,
    size_invariants zeroPopulation zeroSelections (fun k => 7 * k)
      (fun _ => ⟨true, fun i => i⟩) isPopulation_zeroPopulation isSelections_zeroSelections⟩

/-- C11, as stated, fails: when every call of `rand()` returns `0` the initial population
is binary (all-zero) and `selections` may hold all-zero genomes, yet no run of `main`
from its first loop test reaches the final prints. -/
theorem optimum_unreachable_from_zeros :
    IsBinaryPopulation (initPopulation (fun _ => 0)) ∧ IsSelections zeroSelections ∧
    ¬ ∃ t, Run (startState (fun _ => 0) zeroSelections) t ∧ t.stage = .finished := by
  refine ⟨initPopulation_binary _, isSelections_zeroSelections, ?_⟩
  rintro ⟨t, hrun, hfin⟩
  have hinv := startState_invariant (fun _ => 0) zeroSelections isSelections_zeroSelections
  have hle := (run_finished_best _ _ t hinv (by simp [startState]) hrun hfin).1
  rw [initPopulation_zeros, totalFitness_zeroPopulation] at hle
  exact absurd hle (by decide)

/-- C11, amended: the optimum is reachable exactly from the initial populations that
hold at least `L` ones.  For every initial population (filled from `rand`, hence binary)
and every well-typed content of `selections`: there is a finite run of `main` (some
choice of crossover points, of mutated individuals and of shuffle outcomes) after which
the loop has exited with a best individual of fitness `L` if and only if the fitnesses
of the initial population sum to at least `L`. -/
theorem optimum_reachable_iff (rand : Nat → Nat) (stale : List Pairing)
    (hs : IsSelections stale) :
    (∃ t best, Run (startState rand stale) t ∧ t.stage = .finished ∧
      t.population.head? = some best ∧ fitness best = (L : Int)) ↔
    (L : Int) ≤ totalFitness (initPopulation rand) := by
  have hinv := startState_invariant rand stale hs
  constructor
  · rintro ⟨t, _, hrun, hfin, _, _⟩
    exact (run_finished_best _ _ t hinv (by simp [startState]) hrun hfin).1
  · intro hL
    obtain ⟨t, hrun, hfin⟩ := run_to_finished rand stale hs hL
    obtain ⟨_, best, hhead, hfit⟩ :=
      run_finished_best _ _ t hinv (by simp [startState]) hrun hfin
    exact ⟨t, best, hrun, hfin, hhead, hfit⟩

theorem optimum_reachable_iff_witness :
    IsSelections zeroSelections ∧
    ((∃ t best, Run (startState (fun _ => 1) zeroSelections) t ∧ t.stage = .finished ∧
      t.population.head? = some best ∧ fitness best = (L : Int)) ↔
    (L : Int) ≤ totalFitness (initPopulation (fun _ => 1))) :=
  ⟨isSelections_zeroSelections,
    optimum_reachable_iff (fun _ => 1) zeroSelections isSelections_zeroSelections⟩

/-- C12: crossover at point 0 is a full swap.  For every pair `(A, B)` of genomes of
length `L` and every state of `temp`, the loop body with crossover point `0` leaves
`(B, A)`; and in `crossover`, every pair whose draw gives `rand() % 1000 = 0` ends as
`(B, A)`. -/
theorem crossover_point_zero (A B : Genome) (hA : A.length = L) (hB : B.length = L) :
    (∀ temp : Scratch, temp.length = L →
      ∃ temp1, crossoverBody 0 temp (A, B) = some (temp1, (B, A))) ∧
    ∀ (rand : Nat → Nat) (selections : List Pairing) (k : Nat),
      (∀ p ∈ selections, p.1.length = L ∧ p.2.length = L) →
      selections[k]? = some (A, B) → rand k % 1000 = 0 →
      ∃ out, crossover rand selections = some out ∧ out[k]? = some (B, A) := by
  constructor
  · intro temp ht
    refine ⟨temp.take 0 ++ (B.drop 0).map some, ?_⟩
    rw [crossoverBody_eq 0 temp A B (hA.trans hB.symm) (ht.trans hA.symm) (Nat.zero_le _),
      take_zero_append_drop_zero, take_zero_append_drop_zero]
  · intro rand selections k hsz hk hr
    obtain ⟨out, hout, _, hget⟩ := crossover_at rand selections hsz k A B hk
    have hr' : rand k % L = 0 := hr
    rw [hr', take_zero_append_drop_zero, take_zero_append_drop_zero] at hget
    exact ⟨out, hout, hget⟩

theorem crossover_point_zero_witness :
    zeroGenome.length = L ∧ oneGenome.length = L ∧
    (∀ temp : Scratch, temp.length = L →
      ∃ temp1, crossoverBody 0 temp (zeroGenome, oneGenome)
        = some (temp1, (oneGenome, zeroGenome))) ∧
    ∀ (rand : Nat → Nat) (selections : List Pairing) (k : Nat),
      (∀ p ∈ selections, p.1.length = L ∧ p.2.length = L) →
      selections[k]? = some (zeroGenome, oneGenome) → rand k % 1000 = 0 →
      ∃ out, crossover rand selections = some out ∧ out[k]? = some (oneGenome, zeroGenome) :=
  ⟨isGenome_zeroGenome.1, isGenome_oneGenome.1,
    crossover_point_zero zeroGenome oneGenome isGenome_zeroGenome.1 isGenome_oneGenome.1⟩

/-- C13: crossover at point `L - 1` changes as little as possible.  For every pair
`(A, B)` of genomes of length `L`, the loop body with crossover point `L - 1` succeeds
and leaves a pair `(A1, B1)` of genomes of length `L` in which positions `0 … L - 2` are
those of `A` and of `B`, and the last entries are exchanged: `A1[L-1] = B[L-1]` and
`B1[L-1] = A[L-1]`.  The same holds in `crossover` for every pair whose draw gives
`rand() % 1000 = L - 1`. -/
theorem crossover_point_last (A B : Genome) (hA : A.length = L) (hB : B.length = L) :
    (∀ temp : Scratch, temp.length = L →
      ∃ temp1 A1 B1, crossoverBody (L - 1) temp (A, B) = some (temp1, (A1, B1)) ∧
        A1.length = L ∧ B1.length = L ∧
        (∀ i, i < L - 1 → A1[i]? = A[i]? ∧ B1[i]? = B[i]?) ∧
        A1[L - 1]? = B[L - 1]? ∧ B1[L - 1]? = A[L - 1]?) ∧
    ∀ (rand : Nat → Nat) (selections : List Pairing) (k : Nat),
      (∀ p ∈ selections, p.1.length = L ∧ p.2.length = L) →
      selections[k]? = some (A, B) → rand k % 1000 = L - 1 →
      ∃ out A1 B1, crossover rand selections = some out ∧ out[k]? = some (A1, B1) ∧
        A1.length = L ∧ B1.length = L ∧
        (∀ i, i < L - 1 → A1[i]? = A[i]? ∧ B1[i]? = B[i]?) ∧
        A1[L - 1]? = B[L - 1]? ∧ B1[L - 1]? = A[L - 1]? := by
  have hcA : L - 1 ≤ A.length := by rw [hA]; exact Nat.sub_le _ _
  have hcB : L - 1 ≤ B.length := by rw [hB]; exact Nat.sub_le _ _
  have hlenA : (A.take (L - 1) ++ B.drop (L - 1)).length = L := by
    simp only [List.length_append, List.length_take, List.length_drop]; omega
  have hlenB : (B.take (L - 1) ++ A.drop (L - 1)).length = L := by
    simp only [List.length_append, List.length_take, List.length_drop]; omega
  have hlow : ∀ i, i < L - 1 →
      (A.take (L - 1) ++ B.drop (L - 1))[i]? = A[i]? ∧
      (B.take (L - 1) ++ A.drop (L - 1))[i]? = B[i]? := by
    intro i hi
    rw [getElem?_take_append_drop A B (L - 1) i hcA, if_pos hi,
      getElem?_take_append_drop B A (L - 1) i hcB, if_pos hi]
    exact ⟨rfl, rfl⟩
  have hlastA : (A.take (L - 1) ++ B.drop (L - 1))[L - 1]? = B[L - 1]? := by
    rw [getElem?_take_append_drop A B (L - 1) (L - 1) hcA, if_neg (lt_irrefl _)]
  have hlastB : (B.take (L - 1) ++ A.drop (L - 1))[L - 1]? = A[L - 1]? := by
    rw [getElem?_take_append_drop B A (L - 1) (L - 1) hcB, if_neg (lt_irrefl _)]
  constructor
  · intro temp ht
    exact ⟨_, _, _, crossoverBody_eq (L - 1) temp A B (hA.trans hB.symm) (ht.trans hA.symm) hcA,
      hlenA, hlenB, hlow, hlastA, hlastB⟩
  · intro rand selections k hsz hk hr
    obtain ⟨out, hout, _, hget⟩ := crossover_at rand selections hsz k A B hk
    have hr' : rand k % L = L - 1 := hr
    rw [hr'] at hget
    exact ⟨out, _, _, hout, hget, hlenA, hlenB, hlow, hlastA, hlastB⟩

theorem crossover_point_last_witness :
    zeroGenome.length = L ∧ oneGenome.length = L ∧
    (∀ temp : Scratch, temp.length = L →
      ∃ temp1 A1 B1, crossoverBody (L - 1) temp (zeroGenome, oneGenome)
          = some (temp1, (A1, B1)) ∧
        A1.length = L ∧ B1.length = L ∧
        (∀ i, i < L - 1 → A1[i]? = zeroGenome[i]? ∧ B1[i]? = oneGenome[i]?) ∧
        A1[L - 1]? = oneGenome[L - 1]? ∧ B1[L - 1]? = zeroGenome[L - 1]?) ∧
    ∀ (rand : Nat → Nat) (selections : List Pairing) (k : Nat),
      (∀ p ∈ selections, p.1.length = L ∧ p.2.length = L) →
      selections[k]? = some (zeroGenome, oneGenome) → rand k % 1000 = L - 1 →
      ∃ out A1 B1, crossover rand selections = some out ∧ out[k]? = some (A1, B1) ∧
        A1.length = L ∧ B1.length = L ∧
        (∀ i, i < L - 1 → A1[i]? = zeroGenome[i]? ∧ B1[i]? = oneGenome[i]?) ∧
        A1[L - 1]? = oneGenome[L - 1]? ∧ B1[L - 1]? = zeroGenome[L - 1]? :=
  ⟨isGenome_zeroGenome.1, isGenome_oneGenome.1,
    crossover_point_last zeroGenome oneGenome isGenome_zeroGenome.1 isGenome_oneGenome.1⟩

/-- C14: the crossover point is always in `[0, L)`.  For every value `r` returned by
`rand()` the point `r % 1000` is below `1000`; every index the three suffix copies read
or write lies in `[point, L)`; every index of `temp` that is read is one that the same
pass has written.  On the arrays themselves: for genomes of length `L` and any state of
`temp` the loop body succeeds (no access leaves an array, no unwritten entry is read)
and leaves the entries below the point of `first`, `second` and `temp` as they were;
and started with nothing written in `temp`, the entries of `temp` written afterwards
are exactly those the pass writes. -/
theorem crossover_point_in_range (r : Nat) :
    r % 1000 < L ∧
    (∀ i ∈ crossoverIndices (r % 1000), r % 1000 ≤ i ∧ i < L) ∧
    (∀ i ∈ crossoverTempReads (r % 1000), i ∈ crossoverTempWrites (r % 1000)) ∧
    ∀ A B : Genome, A.length = L → B.length = L →
      (∀ temp : Scratch, temp.length = L →
        ∃ temp1 A1 B1, crossoverBody (r % 1000) temp (A, B) = some (temp1, (A1, B1)) ∧
          A1.take (r % 1000) = A.take (r % 1000) ∧
          B1.take (r % 1000) = B.take (r % 1000) ∧
          temp1.take (r % 1000) = temp.take (r % 1000)) ∧
      ∃ temp1 A1 B1,
        crossoverBody (r % 1000) (List.replicate 1000 none) (A, B) = some (temp1, (A1, B1)) ∧
        ∀ i, (∃ v : Int, temp1[i]? = some (some v)) ↔ i ∈ crossoverTempWrites (r % 1000) := by
  have hL : L = 1000 := rfl
  have hc : r % 1000 < L := Nat.mod_lt _ (by decide)
  have hle : r % 1000 ≤ 1000 := by omega
  refine ⟨hc, ?_, ?_, ?_⟩
  · intro i hi
    simp only [crossoverIndices, crossoverTempWrites, crossoverTempReads, List.mem_append,
      mem_stdCopyReads _ _ _ hle, mem_stdCopyWrites] at hi
    omega
  · intro i hi
    unfold crossoverTempReads at hi
    unfold crossoverTempWrites
    rw [mem_stdCopyReads _ _ _ hle] at hi
    rw [mem_stdCopyWrites]
    omega
  · intro A B hA hB
    have htake : ∀ (X Y : List Int), X.length = L →
        (X.take (r % 1000) ++ Y.drop (r % 1000)).take (r % 1000) = X.take (r % 1000) :=
      fun X Y hX => List.take_left' (by rw [List.length_take]; omega)
    constructor
    · intro temp ht
      refine ⟨_, _, _, crossoverBody_eq (r % 1000) temp A B (hA.trans hB.symm)
        (ht.trans hA.symm) (by omega), htake A B hA, htake B A hB, ?_⟩
      exact List.take_left' (by rw [List.length_take]; omega)
    · refine ⟨_, _, _, crossoverBody_eq (r % 1000) (List.replicate 1000 none) A B
        (hA.trans hB.symm) ((List.length_replicate _ _).trans hA.symm) (by omega), ?_⟩
      intro i
      exact crossoverBody_fresh_temp_written (r % 1000) B hB hc i

/-- C15: the total number of 1s of the population is invariant under a full generation.
For every well-typed population, every draw of `rand()` for the crossover points and
every outcome of the random draws of `mutation`, a generation (select, crossover,
reassembly, mutation, evaluate) succeeds and the sum of all fitnesses afterwards equals
the sum before.  Consequently a binary population whose total is below `L` never
reaches the exit: no run of `main` from the loop test with such a population ends in
the final prints. -/
theorem total_fitness_invariant (population : Population) (selections : List Pairing)
    (rand : Nat → Nat) (draws : Nat → MutationDraw)
    (hp : IsPopulation population) (hs : IsSelections selections) :
    (∃ out, generation rand draws population selections = some out ∧
      totalFitness out.1 = totalFitness population) ∧
    (IsBinaryPopulation population →
      (∀ g ∈ population, fitness g = ((g.count 1 : Nat) : Int)) ∧
      (totalFitness population < (L : Int) →
        ∀ (output : List String) (t : State),
          Run { stage := .loopTest, population := population, selections := selections,
                output := output } t →
          t.stage ≠ .finished ∧ totalFitness t.population = totalFitness population)) := by
  constructor
  · obtain ⟨sel, crossed, flat, _, _, _, _, _, _, _, _, htot, hgen⟩ :=
      generation_spec IsShort IsShort rand draws population selections hp hs
    refine ⟨_, hgen, ?_⟩
    simp only []
    rw [totalFitness_evaluate, totalFitness_mutation, htot]
  · intro hbin
    refine ⟨fun g hg => binary_fitness_eq_count g (hbin.2 g hg).2, ?_⟩
    intro hlt output t hrun
    have hinv : StateInvariant (totalFitness population)
        { stage := .loopTest, population := population, selections := selections,
          output := output } :=
      ⟨hbin, hs, rfl, fun hst => by rcases hst with hst | hst <;> cases hst⟩
    exact ⟨run_not_finished _ _ t hinv hlt (by simp) hrun, (run_invariant _ _ t hinv hrun).2.2.1⟩

theorem total_fitness_invariant_witness :
    IsPopulation zeroPopulation ∧ IsSelections zeroSelections ∧
    IsBinaryPopulation zeroPopulation ∧ totalFitness zeroPopulation < (L : Int) ∧
    (∃ out, generation (fun k => 7 * k) (fun _ => ⟨true, fun i => i⟩) zeroPopulation
        zeroSelections = some out ∧
      totalFitness out.1 = totalFitness zeroPopulation) ∧
    (IsBinaryPopulation zeroPopulation →
      (∀ g ∈ zeroPopulation, fitness g = ((g.count 1 : Nat) : Int)) ∧
      (totalFitness zeroPopulation < (L : Int) →
        ∀ (output : List String) (t : State),
          Run { stage := .loopTest, population := zeroPopulation,
                selections := zeroSelections, output := output } t →
          t.stage ≠ .finished ∧ totalFitness t.population = totalFitness zeroPopulation)) :=
  ⟨isPopulation_zeroPopulation, isSelections_zeroSelections,
    isBinaryPopulation_zeroPopulation,
    by rw [totalFitness_zeroPopulation]; decide,
    total_fitness_invariant zeroPopulation zeroSelections (fun k => 7 * k)
      (fun _ => ⟨true, fun i => i⟩) isPopulation_zeroPopulation isSelections_zeroSelections⟩

/-- C16: there is no elitism.  There are a well-typed binary population sorted by
descending fitness and a choice of crossover points such that, with no individual
mutated, one generation of select, crossover, reassembly and evaluate (whatever
`selections` held before) leaves a population whose best fitness, and indeed every
fitness, is strictly below the best fitness before. -/
theorem no_elitism :
    ∃ (population : Population) (rand : Nat → Nat),
      IsPopulation population ∧ (∀ g ∈ population, IsBinary g) ∧
      population.Pairwise (fun a b => fitness b ≤ fitness a) ∧
      ∀ selections : List Pairing, IsSelections selections →
        ∃ out best best1, population.head? = some best ∧
          generation rand noMutation population selections = some out ∧
          out.1.head? = some best1 ∧ fitness best1 < fitness best ∧
          ∀ g ∈ out.1, fitness g < fitness best := by
  refine ⟨elitePopulation, fun _ => 1, isPopulation_elitePopulation, ?_, elitePopulation_sorted, ?_⟩
  · intro g hg
    unfold elitePopulation at hg
    rcases List.mem_cons.1 hg with rfl | hg
    · intro x hx
      unfold twoOnesGenome at hx
      rcases List.mem_cons.1 hx with rfl | hx
      · exact Or.inr rfl
      · rcases List.mem_cons.1 hx with rfl | hx
        · exact Or.inr rfl
        · exact Or.inl (List.eq_of_mem_replicate hx)
    · rw [List.eq_of_mem_replicate hg]
      intro x hx
      exact Or.inl (List.eq_of_mem_replicate hx)
  · intro selections hs
    obtain ⟨out, hgen, hlen, hfit⟩ := elite_generation selections hs
    cases hout : out.1 with
    | nil =>
      rw [hout] at hlen
      exact absurd hlen (by decide)
    | cons best1 rest =>
      have hall : ∀ g ∈ out.1, fitness g < fitness twoOnesGenome := by
        intro g hg
        rw [fitness_twoOnesGenome]
        have := hfit g hg
        omega
      refine ⟨out, twoOnesGenome, best1, rfl, hgen, by rw [hout]; rfl, ?_, hall⟩
      exact hall best1 (by rw [hout]; exact List.mem_cons_self _ _)

/-- C17: reassembly undoes selection.  For every well-typed population, `selection`
followed by the reassembly loop (no crossover in between) succeeds and leaves the
population exactly as it was; and for every well-typed array of pairings, the reassembly
loop followed by `selection` (into whatever `selections` held) returns the same
pairings. -/
theorem reassembly_undoes_selection (population : Population) (selections : List Pairing)
    (hp : IsPopulation population) (hs : IsSelections selections) :
    (∃ sel, selection population selections = some sel ∧
      reassemble population sel = some population) ∧
    (∀ stale : List Pairing, IsSelections stale →
      ∃ flat, reassemble population selections = some flat ∧
        selection flat stale = some selections) := by
  constructor
  · obtain ⟨sel, hsel, _, hre⟩ := reassemble_selection population selections hp hs
    exact ⟨sel, hsel, by simp [reassemble, hre]⟩
  · intro stale hstale
    obtain ⟨flat, hflat, _, hsel⟩ := selection_reassemble population selections stale hp hs hstale
    exact ⟨flat, by simp [reassemble, hflat], hsel⟩

theorem reassembly_undoes_selection_witness :
    IsPopulation zeroPopulation ∧ IsSelections zeroSelections ∧
    (∃ sel, selection zeroPopulation zeroSelections = some sel ∧
      reassemble zeroPopulation sel = some zeroPopulation) ∧
    (∀ stale : List Pairing, IsSelections stale →
      ∃ flat, reassemble zeroPopulation zeroSelections = some flat ∧
        selection flat stale = some zeroSelections) :=
  ⟨isPopulation_zeroPopulation, isSelections_zeroSelections,
    reassembly_undoes_selection zeroPopulation zeroSelections isPopulation_zeroPopulation
      isSelections_zeroSelections⟩

/-- C18: `sortByFitness` is a strict weak ordering.  On well-typed genomes
`sortByFitness(lhs, rhs)` is true exactly when `sum(lhs) > sum(rhs)`, hence false on
ties; and on all genomes it is irreflexive, transitive, and incomparability (neither
`comp(a, b)` nor `comp(b, a)`) is transitive. -/
theorem sortByFitness_strict_weak_order :
    (∀ lhs rhs : Genome, IsGenome lhs → IsGenome rhs →
      (sortByFitness lhs rhs = true ↔ fitness lhs > fitness rhs)) ∧
    (∀ lhs rhs : Genome, IsGenome lhs → IsGenome rhs → fitness lhs = fitness rhs →
      sortByFitness lhs rhs = false ∧ sortByFitness rhs lhs = false) ∧
    (∀ a : Genome, sortByFitness a a = false) ∧
    (∀ a b c : Genome, sortByFitness a b = true → sortByFitness b c = true →
      sortByFitness a c = true) ∧
    (∀ a b c : Genome, sortByFitness a b = false → sortByFitness b a = false →
      sortByFitness b c = false → sortByFitness c b = false →
      sortByFitness a c = false ∧ sortByFitness c a = false) := by
  have hfalse : ∀ a b : Genome, sortByFitness a b = false ↔ accumulate a 0 ≤ accumulate b 0 := by
    intro a b
    rw [← Bool.not_eq_true, sortByFitness_iff]
    exact not_lt
  refine ⟨?_, ?_, ?_, ?_, ?_⟩
  · intro lhs rhs hl hr
    rw [sortByFitness_iff, accumulate_eq_fitness lhs hl, accumulate_eq_fitness rhs hr]
  · intro lhs rhs hl hr heq
    rw [hfalse, hfalse, accumulate_eq_fitness lhs hl, accumulate_eq_fitness rhs hr, heq]
    exact ⟨le_refl _, le_refl _⟩
  · intro a
    rw [hfalse]
  · intro a b c hab hbc
    rw [sortByFitness_iff] at hab hbc ⊢
    exact lt_trans hbc hab
  · intro a b c hab hba hbc hcb
    rw [hfalse] at hab hba hbc hcb ⊢
    rw [hfalse]
    exact ⟨le_trans hab hbc, le_trans hcb hba⟩

/-- C19: the reassembly loop never writes outside the population.  For a well-typed
population and `selections` array the loop runs `N / 2` iterations; in iteration `k` the
two copies target slots `2k` and `2k + 1`, both below `N`, and the guard
`individual != population.end()` at the second slot is true; the loop succeeds, and
the iterator it ends with is `N`, that is `population.end()`, a value it does not take
at any slot it writes. -/
theorem reassembly_in_bounds (population : Population) (selections : List Pairing)
    (hp : IsPopulation population) (hs : IsSelections selections) :
    reassembleTrace 0 population selections
      = (List.range (N / 2)).map (fun k => (2 * k, 2 * k + 1, true)) ∧
    (∀ e ∈ reassembleTrace 0 population selections,
      e.1 < N ∧ e.2.1 < N ∧ e.1 ≠ population.length ∧ e.2.1 ≠ population.length ∧
      e.2.2 = true) ∧
    ∃ out, reassembleLoop 0 population selections = some (N, out) ∧
      out.length = population.length ∧ N = population.length := by
  have htrace : reassembleTrace 0 population selections
      = (List.range (N / 2)).map (fun k => (2 * k, 2 * k + 1, true)) := by
    have := reassembleTrace_spec L selections 0 population (by rw [hs.1, hp.1])
      (fun g hg => (hp.2 g hg).1) (fun p hq => ⟨(hs.2 p hq).1.1, (hs.2 p hq).2.1⟩)
    rw [this, hs.1]
    apply List.map_congr_left
    intro k _
    simp only [Nat.zero_add]
  have hlen : population.length = 100 := hp.1
  refine ⟨htrace, ?_, ?_⟩
  · intro e he
    rw [htrace, List.mem_map] at he
    obtain ⟨k, hk, rfl⟩ := he
    have hk50 : k < 50 := List.mem_range.1 hk
    have hN : N = 100 := rfl
    refine ⟨?_, ?_, ?_, ?_, rfl⟩ <;> simp only [] <;> omega
  · obtain ⟨out, hout, houtOf, _⟩ :=
      reassemble_populationOf IsShort IsShort population selections hp hs
    exact ⟨out, hout, houtOf.1.trans hp.1.symm, hp.1.symm⟩

theorem reassembly_in_bounds_witness :
    IsPopulation zeroPopulation ∧ IsSelections zeroSelections ∧
    reassembleTrace 0 zeroPopulation zeroSelections
      = (List.range (N / 2)).map (fun k => (2 * k, 2 * k + 1, true)) ∧
    (∀ e ∈ reassembleTrace 0 zeroPopulation zeroSelections,
      e.1 < N ∧ e.2.1 < N ∧ e.1 ≠ zeroPopulation.length ∧ e.2.1 ≠ zeroPopulation.length ∧
      e.2.2 = true) ∧
    ∃ out, reassembleLoop 0 zeroPopulation zeroSelections = some (N, out) ∧
      out.length = zeroPopulation.length ∧ N = zeroPopulation.length :=
  ⟨isPopulation_zeroPopulation, isSelections_zeroSelections,
    reassembly_in_bounds zeroPopulation zeroSelections isPopulation_zeroPopulation
      isSelections_zeroSelections⟩

end OneMax
